import Mathlib

/-!
Shallow embedding of the ppt-worker template engine (src/replace.py).

The engine has two parts:

* `TemplateRenderer.cal_render_position`: scans a flat string with the
  regex pattern of two opening braces, a non-greedy non-empty group, and
  two closing braces, replaces each occurrence by the context value of the
  trimmed key, and records an alignment table of occurrences.
* `PptProcessor.replace_paragraph_runs` with helpers
  `_copy_non_placeholder` and `_allocate_rendered_value`: concatenates a
  paragraph's run texts, calls the resolver, and redistributes the
  rendered output over the original run slots.

Python strings are modeled as `List Char`; the context dict as an
association list of strings (the source applies str() to values before
use, so values enter this component as strings).  The two while-style
loops are modeled with an explicit fuel argument equal to an a-priori
iteration bound, so that all definitions compute by kernel reduction.
-/

/-- Python slice s[a:b] for nonnegative a and b (clamping at both ends). -/
def strSlice (l : List Char) (a b : Nat) : List Char := (l.take b).drop a

/-- new_texts[idx] += s (appending to the idx-th accumulated text). -/
def appendAt : List (List Char) → Nat → List Char → List (List Char)
  | [], _, _ => []
  | x :: xs, 0, s => (x ++ s) :: xs
  | x :: xs, n + 1, s => x :: appendAt xs n s

/-- Helper for reasoning: prepend into a vector of accumulated pieces. -/
def prependAt : List (List Char) → Nat → List Char → List (List Char)
  | [], _, _ => []
  | x :: xs, 0, s => (s ++ x) :: xs
  | x :: xs, n + 1, s => x :: prependAt xs n s

/-- The whitespace set of Python str.strip(): exactly the characters for
    which str.isspace() holds — ASCII whitespace, the four information
    separators, next line, no-break space, and the Unicode space and line
    separator characters. -/
def isPySpace (c : Char) : Bool :=
  c = '\t' || c = '\n' || c = '\x0b' || c = '\x0c' || c = '\r' ||
  c = '\x1c' || c = '\x1d' || c = '\x1e' || c = '\x1f' || c = ' ' ||
  c = '\x85' || c = '\xa0' || c = '\u1680' ||
  c = '\u2000' || c = '\u2001' || c = '\u2002' || c = '\u2003' ||
  c = '\u2004' || c = '\u2005' || c = '\u2006' || c = '\u2007' ||
  c = '\u2008' || c = '\u2009' || c = '\u200a' ||
  c = '\u2028' || c = '\u2029' || c = '\u202f' || c = '\u205f' || c = '\u3000'

/-- Python str.strip(). -/
def pyStrip (l : List Char) : List Char :=
  ((l.dropWhile isPySpace).reverse.dropWhile isPySpace).reverse

/-- Round half to even of the nonnegative rational num/den to an integer,
    the rounding rule shared by Python round() and IEEE binary64. -/
def natRoundHalfEven (num den : Nat) : Nat :=
  let q := num / den
  let r := num % den
  if 2 * r < den then q
  else if den < 2 * r then q + 1
  else if q % 2 = 0 then q else q + 1

/-- Floor of the base-two logarithm by fueled halving (n itself bounds
    the number of halvings, so natLog2 passes enough fuel). -/
def log2Fuel : Nat → Nat → Nat
  | 0, _ => 0
  | fuel + 1, n => if 2 ≤ n then log2Fuel fuel (n / 2) + 1 else 0

def natLog2 (n : Nat) : Nat := log2Fuel n n

/-- Correct rounding of the rational num/den to an IEEE binary64 value,
    returned as a significand-exponent pair (m, e) standing for m * 2^e,
    with 2^52 ≤ m ≤ 2^53 for a nonzero input.  E is the floor of the
    base-two logarithm of the quotient, so rounding half to even onto the
    grid of multiples of 2^(E-52) is binary64 round-to-nearest.  The
    exponent is not clamped: the result agrees with binary64 whenever the
    value neither overflows nor falls into the subnormal range, which
    covers every quotient and product the distribution loop meets on
    inputs shorter than astronomical (Python itself raises once the
    integer operands exceed the double range). -/
def floatRound (num den : Nat) : Nat × Int :=
  if num = 0 ∨ den = 0 then (0, 0)
  else
    let a := natLog2 num
    let b := natLog2 den
    let E : Int := if den * 2 ^ a ≤ num * 2 ^ b then (a : Int) - b else ((a : Int) - b) - 1
    let sh : Int := 52 - E
    (natRoundHalfEven (num * 2 ^ sh.toNat) (den * 2 ^ (-sh).toNat), E - 52)

/-- binary64 product of a float (significand and exponent) with a
    nonnegative integer, correctly rounded. -/
def mulFloatNat (m : Nat) (e : Int) (k : Nat) : Nat × Int :=
  if 0 ≤ e then floatRound (m * k * 2 ^ e.toNat) 1
  else floatRound (m * k) (2 ^ (-e).toNat)

/-- Python round() on a float given as significand and exponent: round
    half to even of its exact rational value. -/
def roundFloatToNat (m : Nat) (e : Int) : Nat :=
  if 0 ≤ e then m * 2 ^ e.toNat
  else natRoundHalfEven m (2 ^ (-e).toNat)

/-- round(part_len / total_covered_len * rend_len) exactly as the source
    computes it: the division part_len / total_covered_len is rounded to
    binary64, the product with rend_len is rounded to binary64, and
    Python round() (half to even on the exact value of the double) maps
    the result to an integer. -/
def pyRound (pl rl tot : Nat) : Nat :=
  let f1 := floatRound pl tot
  let f2 := mulFloatNat f1.1 f1.2 rl
  roundFloatToNat f2.1 f2.2

/-- The context dict: string keys mapped to stringified values. -/
def Context : Type := List (List Char × List Char)

/-- First binding of the key, as dict lookup (keys are unique in a dict). -/
def ctxLookup : Context → List Char → Option (List Char)
  | [], _ => none
  | (k, v) :: rest, key => if k = key then some v else ctxLookup rest key

/-- context.get(key, ''). -/
def ctxGet (ctx : Context) (key : List Char) : List Char :=
  (ctxLookup ctx key).getD []

/-- The regex group search after a literal pair of opening braces: the
    non-greedy group consumes at least one character, each matched by dot
    (so never a newline), and the first pair of closing braces that leaves
    the group nonempty ends the match.  Returns the captured group and the
    input remaining after the closing braces. -/
def closeScan : List Char → List Char → Option (List Char × List Char)
  | _, [] => none
  | acc, ch :: rest =>
    if ch = '\n' then none
    else
      match rest with
      | c1 :: c2 :: rest2 =>
        if c1 = '}' ∧ c2 = '}' then some (acc ++ [ch], rest2)
        else closeScan (acc ++ [ch]) rest
      | _ => closeScan (acc ++ [ch]) rest

/-- finditer of PLACEHOLDER_PATTERN: left-to-right scan over the input;
    after a match the scan resumes at the match end, otherwise it advances
    one character.  Matches are reported as (start, end, group).  The fuel
    bounds the number of steps; every step shortens the remaining input,
    so `scan` passes enough fuel for any input. -/
def scanAux : Nat → List Char → Nat → List (Nat × Nat × List Char)
  | 0, _, _ => []
  | _ + 1, [], _ => []
  | fuel + 1, [_], i => scanAux fuel [] (i + 1)
  | fuel + 1, c1 :: c2 :: rest, i =>
    if c1 = '{' ∧ c2 = '{' then
      match closeScan [] rest with
      | some (c, rest2) =>
        (i, i + 4 + c.length, c) :: scanAux fuel rest2 (i + 4 + c.length)
      | none => scanAux fuel (c2 :: rest) (i + 1)
    else scanAux fuel (c2 :: rest) (i + 1)

/-- All matches of the placeholder pattern, in order of appearance. -/
def scan (t : List Char) : List (Nat × Nat × List Char) :=
  scanAux (t.length + 1) t 0

/-- A placeholder occurrence, the dict built by cal_render_position. -/
structure Placeholder where
  original_start : Nat
  original_length : Nat
  rendered_start : Nat
  rendered_length : Nat
  placeholder : List Char
  rendered_value : List Char
  deriving DecidableEq, Repr

/-- The match loop of cal_render_position: accumulate the rendered text,
    record each occurrence, and finally copy the tail verbatim. -/
def renderLoop (ctx : Context) (t : List Char) :
    List (Nat × Nat × List Char) → List Char → Nat → List Char × List Placeholder
  | [], rendered, last_end => (rendered ++ t.drop last_end, [])
  | (s, e, c) :: ms, rendered, last_end =>
    let rendered1 := rendered ++ strSlice t last_end s
    let key := pyStrip c
    let value := ctxGet ctx key
    let ph : Placeholder :=
      { original_start := s, original_length := e - s,
        rendered_start := rendered1.length, rendered_length := value.length,
        placeholder := key, rendered_value := value }
    let res := renderLoop ctx t ms (rendered1 ++ value) e
    (res.1, ph :: res.2)

/-- TemplateRenderer.cal_render_position. -/
def cal_render_position (ctx : Context) (all_text : List Char) :
    List Char × List Placeholder :=
  renderLoop ctx all_text (scan all_text) [] 0

/-- A run: mutable text plus a style payload the engine never inspects
    (the type is an arbitrary parameter, so reflow cannot read it). -/
structure Run (σ : Type) where
  text : List Char
  style : σ
  deriving DecidableEq

/-- Run slots: (start, length) of each run inside the concatenated
    paragraph text, built with a cumulative start index. -/
def slotsAux : List (List Char) → Nat → List (Nat × Nat)
  | [], _ => []
  | t :: ts, i => (i, t.length) :: slotsAux ts (i + t.length)

/-- The inner for-loop of _copy_non_placeholder: the first slot with
    run_end > current >= run_start, with its index. -/
def findSlot : List (Nat × Nat) → Nat → Option (Nat × Nat × Nat)
  | [], _ => none
  | (s, l) :: rest, cur =>
    if cur < s + l ∧ s ≤ cur then some (0, s, l)
    else (findSlot rest cur).map (fun r => (r.1 + 1, r.2.1, r.2.2))

/-- The while-loop of PptProcessor._copy_non_placeholder.  Each iteration
    appends the part of [current, end) inside the found slot and advances
    current by at least one, so a fuel of end - start covers the loop; if
    no slot contains the position the source loop would spin forever, a
    state unreachable because the slots partition the concatenated text. -/
def copyLoop : Nat → List (List Char) → List (Nat × Nat) → List Char → Nat → Nat → List (List Char)
  | 0, nt, _, _, _, _ => nt
  | fuel + 1, nt, slots, t, cur, e =>
    if cur < e then
      match findSlot slots cur with
      | none => nt
      | some (_idx, s, l) =>
        copyLoop fuel
          (appendAt nt _idx (strSlice t cur (cur + min (e - cur) (s + l - cur))))
          slots t (cur + min (e - cur) (s + l - cur)) e
    else nt

/-- PptProcessor._copy_non_placeholder. -/
def _copy_non_placeholder (nt : List (List Char)) (slots : List (Nat × Nat))
    (t : List Char) (start e : Nat) : List (List Char) :=
  copyLoop (e - start) nt slots t start e

/-- The covered_runs computation of _allocate_rendered_value: the (index,
    overlap length) of every slot overlapping [os, oe). -/
def coveredAux : List (Nat × Nat) → Nat → Nat → Nat → List (Nat × Nat)
  | [], _, _, _ => []
  | (s, l) :: rest, i, os, oe =>
    if os < s + l ∧ s < oe then
      (i, min (s + l) oe - max s os) :: coveredAux rest (i + 1) os oe
    else coveredAux rest (i + 1) os oe

/-- Total overlap length of the occurrence with the run slots. -/
def totalCovered (slots : List (Nat × Nat)) (os oe : Nat) : Nat :=
  ((coveredAux slots 0 os oe).map Prod.snd).sum

/-- The distribution for-loop of _allocate_rendered_value: every covered
    slot but the last is allocated pyRound of its proportional share (the
    binary64 computation of the source); the last gets rend_len -
    allocated.  The truncated subtraction mirrors the fact that a Python
    slice whose stop is below its start is empty. -/
def allocLoop (v : List Char) (rl tot : Nat) :
    List (List Char) → List (Nat × Nat) → Nat → List (List Char)
  | nt, [], _ => nt
  | nt, (idx, pl) :: rest, a =>
    allocLoop v rl tot
      (appendAt nt idx
        (strSlice v a (a + (if rest.isEmpty then rl - a else pyRound pl rl tot))))
      rest
      (a + (if rest.isEmpty then rl - a else pyRound pl rl tot))

/-- PptProcessor._allocate_rendered_value. -/
def _allocate_rendered_value (nt : List (List Char)) (slots : List (Nat × Nat))
    (ph : Placeholder) (os oe : Nat) : List (List Char) :=
  if totalCovered slots os oe = 0 then nt
  else
    allocLoop ph.rendered_value ph.rendered_length (totalCovered slots os oe)
      nt (coveredAux slots 0 os oe) 0

/-- The per-placeholder loop of replace_paragraph_runs, followed by the
    trailing gap copy up to the end of the source text. -/
def replaceLoop (slots : List (Nat × Nat)) (t : List Char) :
    List Placeholder → List (List Char) → Nat → List (List Char)
  | [], nt, cur => _copy_non_placeholder nt slots t cur t.length
  | ph :: ps, nt, cur =>
    replaceLoop slots t ps
      (_allocate_rendered_value
        (_copy_non_placeholder nt slots t cur ph.original_start)
        slots ph ph.original_start (ph.original_start + ph.original_length))
      (ph.original_start + ph.original_length)

/-- PptProcessor.replace_paragraph_runs on one paragraph's runs: build the
    slot table and the concatenated text, resolve, return unchanged runs
    when no placeholder matched, otherwise rebuild every run text and
    write it back (styles travel untouched through the record update). -/
def replace_paragraph_runs {σ : Type} (ctx : Context) (runs : List (Run σ)) :
    List (Run σ) :=
  let texts := runs.map Run.text
  let rp := cal_render_position ctx texts.flatten
  if rp.2.isEmpty then runs
  else
    List.zipWith (fun r t => { r with text := t }) runs
      (replaceLoop (slotsAux texts 0) texts.flatten rp.2
        (List.replicate runs.length []) 0)

/-- Modelled from the spec: is there a closing double brace at offset k? -/
def closesAt (l : List Char) (k : Nat) : Bool :=
  ((l.drop k).take 2) = ['}', '}']

/-- Modelled from the spec, literal reading: the first closing double
    brace after the opening one ends the match, with arbitrary (possibly
    empty) content before it. -/
def firstCloseLit (l : List Char) : Option Nat :=
  (List.range (l.length + 1)).find? (fun k => closesAt l k)

/-- Modelled from the spec, literal reading of the matching rule: scan
    left to right; at an opening double brace take the first closing
    double brace as the match end; otherwise advance one character. -/
def specScanLitAux : Nat → List Char → Nat → List (Nat × Nat × List Char)
  | 0, _, _ => []
  | _ + 1, [], _ => []
  | fuel + 1, [_], i => specScanLitAux fuel [] (i + 1)
  | fuel + 1, c1 :: c2 :: rest, i =>
    if c1 = '{' ∧ c2 = '{' then
      match firstCloseLit rest with
      | some k =>
        (i, i + 4 + k, rest.take k) :: specScanLitAux fuel (rest.drop (k + 2)) (i + 4 + k)
      | none => specScanLitAux fuel (c2 :: rest) (i + 1)
    else specScanLitAux fuel (c2 :: rest) (i + 1)

/-- Literal-reading matcher over a whole input. -/
def specScanLit (t : List Char) : List (Nat × Nat × List Char) :=
  specScanLitAux (t.length + 1) t 0

/-- Modelled from the spec (amended): a valid close offset leaves a
    nonempty content none of whose characters is a newline. -/
def goodK (l : List Char) (k : Nat) : Bool :=
  decide (1 ≤ k) && closesAt l k && (l.take k).all (fun c => !(c = '\n'))

/-- The proposition goodK decides: offset k closes a match whose content
    is nonempty and newline-free. -/
def GoodK (l : List Char) (k : Nat) : Prop :=
  1 ≤ k ∧ (l.drop k).take 2 = ['}', '}'] ∧ ∀ c ∈ l.take k, c ≠ '\n'

/-- Amended reading: the earliest closing double brace compatible with a
    nonempty newline-free content ends the match. -/
def firstClose (l : List Char) : Option Nat :=
  (List.range (l.length + 1)).find? (goodK l)

/-- Amended matcher: scan left to right; at an opening double brace use
    firstClose; otherwise advance one character. -/
def specScanAux : Nat → List Char → Nat → List (Nat × Nat × List Char)
  | 0, _, _ => []
  | _ + 1, [], _ => []
  | fuel + 1, [_], i => specScanAux fuel [] (i + 1)
  | fuel + 1, c1 :: c2 :: rest, i =>
    if c1 = '{' ∧ c2 = '{' then
      match firstClose rest with
      | some k =>
        (i, i + 4 + k, rest.take k) :: specScanAux fuel (rest.drop (k + 2)) (i + 4 + k)
      | none => specScanAux fuel (c2 :: rest) (i + 1)
    else specScanAux fuel (c2 :: rest) (i + 1)

/-- Amended matcher over a whole input. -/
def specScan (t : List Char) : List (Nat × Nat × List Char) :=
  specScanAux (t.length + 1) t 0

/-- The consumed value lengths of the distribution loop, in covered-run
    order, starting from an already-allocated amount a. -/
def allocLens (rl tot : Nat) : List (Nat × Nat) → Nat → List Nat
  | [], _ => []
  | (_, pl) :: rest, a =>
    (if rest.isEmpty then rl - a else pyRound pl rl tot) ::
      allocLens rl tot rest
        (a + (if rest.isEmpty then rl - a else pyRound pl rl tot))

/-- Modelled from the spec: the portion of the resolved value the k-th
    overlapping slot receives.  Every slot but the last is allocated
    pyRound of its proportional share, taken from the next unallocated
    part of the value (so it receives fewer characters when the value is
    already exhausted, the slice being clamped at the value's end); the
    last slot receives the entire remaining suffix. -/
def specPortion (v : List Char) (rl tot : Nat) (cs : List (Nat × Nat)) (k : Nat) :
    List Char :=
  let before := ((cs.take k).map (fun p => pyRound p.2 rl tot)).sum
  if k + 1 = cs.length then v.drop before
  else strSlice v before (before + pyRound (cs.getD k (0, 0)).2 rl tot)

/-- The reflow frontier invariant: every run slot starting at or after
    position c still has an empty accumulated text. -/
def Clean (texts nt : List (List Char)) (c : Nat) : Prop :=
  ∀ (j s l : Nat), (slotsAux texts 0)[j]? = some (s, l) → c ≤ s → nt[j]? = some []

/-- Well-formed match lists: spans are within bounds, nonempty, ordered,
    and chained from the scan position. -/
inductive WFms : List (Nat × Nat × List Char) → Nat → Nat → Prop
  | nil : ∀ {cur N : Nat}, cur ≤ N → WFms [] cur N
  | cons : ∀ {s e N cur : Nat} {c : List Char} {ms : List (Nat × Nat × List Char)},
      cur ≤ s → s < e → e ≤ N → WFms ms e N → WFms ((s, e, c) :: ms) cur N

/-! ### Basic list lemmas -/

theorem getElem_some_lt {α : Type} {l : List α} {i : Nat} {x : α}
    (h : l[i]? = some x) : i < l.length := by
  induction l generalizing i with
  | nil => simp at h
  | cons a l ih =>
    cases i with
    | zero => simp
    | succ i => simp only [List.getElem?_cons_succ] at h; simpa using ih h

theorem getElem_exists_of_lt {α : Type} {l : List α} {i : Nat}
    (h : i < l.length) : ∃ x, l[i]? = some x := by
  induction l generalizing i with
  | nil => simp at h
  | cons a l ih =>
    cases i with
    | zero => exact ⟨a, by simp⟩
    | succ i => simpa using ih (by simpa using h)

theorem mem_of_getElem {α : Type} {l : List α} {i : Nat} {x : α}
    (h : l[i]? = some x) : x ∈ l := by
  induction l generalizing i with
  | nil => simp at h
  | cons a l ih =>
    cases i with
    | zero => simp at h; simp [h]
    | succ i =>
      simp only [List.getElem?_cons_succ] at h
      exact List.mem_cons_of_mem a (ih h)

theorem getElem_of_mem {α : Type} {l : List α} {x : α}
    (h : x ∈ l) : ∃ i : Nat, l[i]? = some x := by
  induction l with
  | nil => simp at h
  | cons a l ih =>
    rcases List.mem_cons.mp h with h | h
    · exact ⟨0, by simp [h]⟩
    · obtain ⟨i, hi⟩ := ih h
      exact ⟨i + 1, by simpa using hi⟩

theorem appendAt_length (xs : List (List Char)) (n : Nat) (s : List Char) :
    (appendAt xs n s).length = xs.length := by
  induction xs generalizing n with
  | nil => simp [appendAt]
  | cons x xs ih =>
    cases n with
    | zero => simp [appendAt]
    | succ n => simp [appendAt, ih]

theorem appendAt_get_self (xs : List (List Char)) (n : Nat) (s : List Char) :
    (appendAt xs n s)[n]? = (xs[n]?).map (fun x => x ++ s) := by
  induction xs generalizing n with
  | nil => simp [appendAt]
  | cons x xs ih =>
    cases n with
    | zero => simp [appendAt]
    | succ n => simpa [appendAt] using ih n

theorem appendAt_get_ne (xs : List (List Char)) (n m : Nat) (s : List Char)
    (h : m ≠ n) : (appendAt xs n s)[m]? = xs[m]? := by
  induction xs generalizing n m with
  | nil => simp [appendAt]
  | cons x xs ih =>
    cases n with
    | zero =>
      cases m with
      | zero => exact absurd rfl h
      | succ m => simp [appendAt]
    | succ n =>
      cases m with
      | zero => simp [appendAt]
      | succ m =>
        simp only [appendAt, List.getElem?_cons_succ]
        exact ih n m (fun hc => h (by simp [hc]))

theorem prependAt_length (xs : List (List Char)) (n : Nat) (s : List Char) :
    (prependAt xs n s).length = xs.length := by
  induction xs generalizing n with
  | nil => simp [prependAt]
  | cons x xs ih =>
    cases n with
    | zero => simp [prependAt]
    | succ n => simp [prependAt, ih]

theorem prependAt_get_self (xs : List (List Char)) (n : Nat) (s : List Char) :
    (prependAt xs n s)[n]? = (xs[n]?).map (fun x => s ++ x) := by
  induction xs generalizing n with
  | nil => simp [prependAt]
  | cons x xs ih =>
    cases n with
    | zero => simp [prependAt]
    | succ n => simpa [prependAt] using ih n

theorem prependAt_get_ne (xs : List (List Char)) (n m : Nat) (s : List Char)
    (h : m ≠ n) : (prependAt xs n s)[m]? = xs[m]? := by
  induction xs generalizing n m with
  | nil => simp [prependAt]
  | cons x xs ih =>
    cases n with
    | zero =>
      cases m with
      | zero => exact absurd rfl h
      | succ m => simp [prependAt]
    | succ n =>
      cases m with
      | zero => simp [prependAt]
      | succ m =>
        simp only [prependAt, List.getElem?_cons_succ]
        exact ih n m (fun hc => h (by simp [hc]))

theorem zipWith_appendAt_prependAt (nt p : List (List Char)) (i : Nat) (s : List Char)
    (h : nt.length = p.length) :
    List.zipWith (· ++ ·) (appendAt nt i s) p
      = List.zipWith (· ++ ·) nt (prependAt p i s) := by
  induction nt generalizing p i with
  | nil => cases p <;> simp [appendAt, prependAt]
  | cons x nt ih =>
    cases p with
    | nil => simp at h
    | cons y p =>
      cases i with
      | zero => simp [appendAt, prependAt, List.append_assoc]
      | succ i =>
        simp only [appendAt, prependAt, List.zipWith_cons_cons]
        rw [ih p i (by simpa using h)]

theorem zipWith_get (a b : List (List Char)) (i : Nat) (x y : List Char)
    (ha : a[i]? = some x) (hb : b[i]? = some y) :
    (List.zipWith (· ++ ·) a b)[i]? = some (x ++ y) := by
  induction a generalizing b i with
  | nil => simp at ha
  | cons z a ih =>
    cases b with
    | nil => simp at hb
    | cons w b =>
      cases i with
      | zero => simp_all
      | succ i =>
        simp only [List.getElem?_cons_succ] at ha hb
        simpa using ih b i ha hb

theorem zipWith_append_replicate_nil (nt : List (List Char)) :
    List.zipWith (· ++ ·) nt (List.replicate nt.length []) = nt := by
  induction nt with
  | nil => simp
  | cons x nt ih => simp [List.replicate_succ, ih]

theorem zipWith_append_left_nil (a b : List (List Char))
    (ha : ∀ x ∈ a, x = []) (h : a.length = b.length) :
    List.zipWith (· ++ ·) a b = b := by
  induction a generalizing b with
  | nil => cases b with | nil => simp | cons _ _ => simp at h
  | cons x a ih =>
    cases b with
    | nil => simp at h
    | cons y b =>
      have hx : x = [] := ha x (by simp)
      simp only [List.zipWith_cons_cons, hx, List.nil_append]
      exact congrArg _ (ih b (fun z hz => ha z (by simp [hz])) (by simpa using h))

theorem replicate_get {α : Type} (n i : Nat) (x : α) (h : i < n) :
    (List.replicate n x)[i]? = some x := by
  induction n generalizing i with
  | zero => omega
  | succ n ih =>
    cases i with
    | zero => simp [List.replicate_succ]
    | succ i => simpa [List.replicate_succ] using ih i (by omega)

/-! ### Flatten and slice lemmas -/

theorem flatten_eq_nil_of_all_nil (l : List (List Char))
    (h : ∀ z ∈ l, z = []) : l.flatten = [] := by
  induction l with
  | nil => rfl
  | cons w l ih =>
    have hw : w = [] := h w (by simp)
    simp [hw, ih (fun z hz => h z (by simp [hz]))]

theorem flatten_zipWith_append (nt parts : List (List Char))
    (hlen : nt.length = parts.length)
    (h : ∀ (j k : Nat) (x y : List Char), j < k → parts[j]? = some x → x ≠ [] →
      nt[k]? = some y → y = []) :
    (List.zipWith (· ++ ·) nt parts).flatten = nt.flatten ++ parts.flatten := by
  induction nt generalizing parts with
  | nil => cases parts with | nil => simp | cons _ _ => simp at hlen
  | cons x nt ih =>
    cases parts with
    | nil => simp at hlen
    | cons y parts =>
      by_cases hy : y = []
      · subst hy
        have := ih parts (by simpa using hlen)
          (fun j k a b hjk ha hane hb =>
            h (j + 1) (k + 1) a b (by omega) (by simpa using ha) hane (by simpa using hb))
        simp only [List.zipWith_cons_cons, List.flatten_cons, this]
        simp
      · have hnt : ∀ z ∈ nt, z = [] := by
          intro z hz
          obtain ⟨k, hk⟩ := getElem_of_mem hz
          exact h 0 (k + 1) y z (by omega) (by simp) hy (by simpa using hk)
        have hz : List.zipWith (· ++ ·) nt parts = parts :=
          zipWith_append_left_nil nt parts hnt (by simpa using hlen)
        have hflat : nt.flatten = [] := flatten_eq_nil_of_all_nil nt hnt
        simp [hz, hflat, List.append_assoc]

theorem flatten_prependAt (p : List (List Char)) (i : Nat) (s : List Char)
    (hi : i < p.length)
    (h : ∀ (j : Nat) (y : List Char), j < i → p[j]? = some y → y = []) :
    (prependAt p i s).flatten = s ++ p.flatten := by
  induction p generalizing i with
  | nil => simp at hi
  | cons y p ih =>
    cases i with
    | zero => simp [prependAt, List.append_assoc]
    | succ i =>
      have hy : y = [] := h 0 y (by omega) (by simp)
      subst hy
      simp only [prependAt, List.flatten_cons, List.nil_append]
      exact ih i (by simpa using hi)
        (fun j z hj hz => h (j + 1) z (by omega) (by simpa using hz))

theorem strSlice_nil_of_le (l : List Char) (a b : Nat) (h : b ≤ a) :
    strSlice l a b = [] := by
  apply List.drop_eq_nil_of_le
  calc (l.take b).length ≤ b := by simp
    _ ≤ a := h

theorem drop_take_drop (u : List Char) (a m : Nat) (h : a ≤ m) :
    (u.take m).drop a ++ u.drop m = u.drop a := by
  rw [List.drop_take m a u]
  have h2 : u.drop m = (u.drop a).drop (m - a) := by
    rw [List.drop_drop]
    congr 1
    omega
  rw [h2]
  exact List.take_append_drop (m - a) (u.drop a)

theorem strSlice_append (t : List Char) (a m e : Nat) (h1 : a ≤ m) (h2 : m ≤ e) :
    strSlice t a m ++ strSlice t m e = strSlice t a e := by
  unfold strSlice
  have : t.take m = (t.take e).take m := by
    rw [List.take_take]
    congr 1
    omega
  rw [this]
  exact drop_take_drop (t.take e) a m h1

theorem strSlice_append_drop (v : List Char) (a al : Nat) :
    strSlice v a (a + al) ++ v.drop (a + al) = v.drop a := by
  exact drop_take_drop v a (a + al) (by omega)

theorem strSlice_drop_of_len (v : List Char) (a : Nat) :
    strSlice v a (a + (v.length - a)) = v.drop a := by
  by_cases h : a ≤ v.length
  · have : a + (v.length - a) = v.length := by omega
    rw [this]
    unfold strSlice
    rw [List.take_length]
  · have h1 : v.length - a = 0 := by omega
    rw [h1]
    rw [strSlice_nil_of_le v a (a + 0) (by omega)]
    rw [List.drop_eq_nil_of_le (by omega)]

theorem pyRound_zero (rl tot : Nat) : pyRound 0 rl tot = 0 := by
  simp [pyRound, floatRound, mulFloatNat, roundFloatToNat]

/-! ### Run slot lemmas -/

theorem slotsAux_length (ts : List (List Char)) (i : Nat) :
    (slotsAux ts i).length = ts.length := by
  induction ts generalizing i with
  | nil => simp [slotsAux]
  | cons t ts ih => simp [slotsAux, ih]

theorem slots_get_of_text (ts : List (List Char)) (i j : Nat) (txt : List Char)
    (h : ts[j]? = some txt) :
    ∃ s : Nat, (slotsAux ts i)[j]? = some (s, txt.length) := by
  induction ts generalizing i j with
  | nil => simp at h
  | cons t ts ih =>
    cases j with
    | zero => simp at h; exact ⟨i, by simp [slotsAux, h]⟩
    | succ j =>
      simp only [List.getElem?_cons_succ] at h
      obtain ⟨s, hs⟩ := ih (i + t.length) j h
      exact ⟨s, by simpa [slotsAux] using hs⟩

theorem slots_bounds (ts : List (List Char)) (i j s l : Nat)
    (h : (slotsAux ts i)[j]? = some (s, l)) :
    i ≤ s ∧ s + l ≤ i + (ts.map List.length).sum := by
  induction ts generalizing i j with
  | nil => simp [slotsAux] at h
  | cons t ts ih =>
    cases j with
    | zero =>
      simp [slotsAux] at h
      obtain ⟨h1, h2⟩ := h
      subst h1; subst h2
      simp
    | succ j =>
      simp only [slotsAux, List.getElem?_cons_succ] at h
      have := ih (i + t.length) j h
      simp only [List.map_cons, List.sum_cons]
      omega

theorem slots_mono (ts : List (List Char)) (i j k s l s2 l2 : Nat)
    (hjk : j < k)
    (hj : (slotsAux ts i)[j]? = some (s, l))
    (hk : (slotsAux ts i)[k]? = some (s2, l2)) :
    s + l ≤ s2 := by
  induction ts generalizing i j k with
  | nil => simp [slotsAux] at hj
  | cons t ts ih =>
    cases j with
    | zero =>
      simp [slotsAux] at hj
      obtain ⟨h1, h2⟩ := hj
      subst h1; subst h2
      cases k with
      | zero => omega
      | succ k =>
        simp only [slotsAux, List.getElem?_cons_succ] at hk
        have := slots_bounds ts (i + t.length) k s2 l2 hk
        omega
    | succ j =>
      cases k with
      | zero => omega
      | succ k =>
        simp only [slotsAux, List.getElem?_cons_succ] at hj hk
        exact ih (i + t.length) j k (by omega) hj hk

theorem slots_contain (ts : List (List Char)) (i p : Nat)
    (h1 : i ≤ p) (h2 : p < i + (ts.map List.length).sum) :
    ∃ (j s l : Nat), (slotsAux ts i)[j]? = some (s, l) ∧ s ≤ p ∧ p < s + l := by
  induction ts generalizing i with
  | nil => simp at h2; omega
  | cons t ts ih =>
    by_cases hp : p < i + t.length
    · exact ⟨0, i, t.length, by simp [slotsAux], h1, hp⟩
    · have h2b : p < (i + t.length) + (ts.map List.length).sum := by
        simp only [List.map_cons, List.sum_cons] at h2
        omega
      obtain ⟨j, s, l, hj, hs, hl⟩ := ih (i + t.length) (by omega) h2b
      exact ⟨j + 1, s, l, by simpa [slotsAux] using hj, hs, hl⟩

theorem findSlot_spec (slots : List (Nat × Nat)) (cur j s l : Nat)
    (h : findSlot slots cur = some (j, s, l)) :
    slots[j]? = some (s, l) ∧ s ≤ cur ∧ cur < s + l := by
  induction slots generalizing j with
  | nil => simp [findSlot] at h
  | cons p rest ih =>
    obtain ⟨ps, pl⟩ := p
    by_cases hc : cur < ps + pl ∧ ps ≤ cur
    · simp [findSlot, hc] at h
      obtain ⟨h1, h2, h3⟩ := h
      subst h1; subst h2; subst h3
      exact ⟨by simp, hc.2, hc.1⟩
    · simp only [findSlot, if_neg hc] at h
      cases hf : findSlot rest cur with
      | none => rw [hf] at h; simp at h
      | some r =>
        rw [hf] at h
        obtain ⟨r1, r2, r3⟩ := r
        simp at h
        obtain ⟨h1, h2, h3⟩ := h
        have := ih r1 (by rw [hf, ← h2, ← h3])
        rcases j with _ | j
        · omega
        · have hj : j = r1 := by omega
          subst hj
          simpa using this

theorem findSlot_none (slots : List (Nat × Nat)) (cur : Nat)
    (h : findSlot slots cur = none) :
    ∀ (j s l : Nat), slots[j]? = some (s, l) → ¬(s ≤ cur ∧ cur < s + l) := by
  induction slots generalizing cur with
  | nil => intro j s l hj; simp at hj
  | cons p rest ih =>
    obtain ⟨ps, pl⟩ := p
    by_cases hc : cur < ps + pl ∧ ps ≤ cur
    · simp [findSlot, hc] at h
    · simp only [findSlot, if_neg hc] at h
      cases hf : findSlot rest cur with
      | none =>
        intro j s l hj
        cases j with
        | zero =>
          simp only [List.getElem?_cons_zero, Option.some_inj, Prod.mk.injEq] at hj
          intro hcon
          exact hc (by omega)
        | succ j =>
          simp only [List.getElem?_cons_succ] at hj
          exact ih cur hf j s l hj
      | some r => rw [hf] at h; simp at h

theorem findSlot_of_contain (slots : List (Nat × Nat)) (cur : Nat)
    (h : ∃ (j s l : Nat), slots[j]? = some (s, l) ∧ s ≤ cur ∧ cur < s + l) :
    ∃ (j s l : Nat), findSlot slots cur = some (j, s, l) := by
  cases hf : findSlot slots cur with
  | none =>
    obtain ⟨j, s, l, hj, hs, hl⟩ := h
    exact absurd ⟨hs, hl⟩ (findSlot_none slots cur hf j s l hj)
  | some r => exact ⟨r.1, r.2.1, r.2.2, by simp⟩

/-! ### Gap copy: the while loop distributes a source span over the slots -/

theorem replicate_get_inv {α : Type} (n j : Nat) (y x : α)
    (h : (List.replicate n y)[j]? = some x) : x = y := by
  induction n generalizing j with
  | zero => simp at h
  | succ n ih =>
    cases j with
    | zero =>
      simp [List.replicate_succ] at h
      exact h.symm
    | succ j => exact ih j (by simpa [List.replicate_succ] using h)

theorem copyLoop_parts (texts : List (List Char)) (t : List Char) :
    ∀ (fuel cur e : Nat) (nt : List (List Char)),
    e ≤ cur + fuel →
    e ≤ (texts.map List.length).sum →
    nt.length = texts.length →
    ∃ parts : List (List Char),
      parts.length = nt.length ∧
      copyLoop fuel nt (slotsAux texts 0) t cur e = List.zipWith (· ++ ·) nt parts ∧
      parts.flatten = strSlice t cur e ∧
      (∀ (j : Nat) (x : List Char), parts[j]? = some x → x ≠ [] →
        ∃ (s l : Nat), (slotsAux texts 0)[j]? = some (s, l) ∧ cur < s + l ∧ s < e ∧ l ≠ 0) := by
  intro fuel
  induction fuel with
  | zero =>
    intro cur e nt hf he hlen
    refine ⟨List.replicate nt.length [], by simp, ?_, ?_, ?_⟩
    · rw [show copyLoop 0 nt (slotsAux texts 0) t cur e = nt from rfl]
      exact (zipWith_append_replicate_nil nt).symm
    · simp [strSlice_nil_of_le t cur e (by omega)]
    · intro j x hx hne
      exact absurd (replicate_get_inv nt.length j [] x hx) hne
  | succ fuel ih =>
    intro cur e nt hf he hlen
    by_cases hce : cur < e
    · have hcontain : ∃ (j s l : Nat),
          (slotsAux texts 0)[j]? = some (s, l) ∧ s ≤ cur ∧ cur < s + l :=
        slots_contain texts 0 cur (by omega) (by omega)
      obtain ⟨idx, s, l, hfs⟩ := findSlot_of_contain _ cur hcontain
      obtain ⟨hslot, hsle, hclt⟩ := findSlot_spec _ cur idx s l hfs
      have hidx : idx < nt.length := by
        have := getElem_some_lt hslot
        rw [slotsAux_length] at this
        omega
      have hrem : 1 ≤ min (e - cur) (s + l - cur) := by omega
      obtain ⟨parts, hplen, heq, hflat, hsupp⟩ :=
        ih (cur + min (e - cur) (s + l - cur)) e
          (appendAt nt idx (strSlice t cur (cur + min (e - cur) (s + l - cur))))
          (by omega) he (by rw [appendAt_length]; exact hlen)
      rw [appendAt_length] at hplen
      refine ⟨prependAt parts idx (strSlice t cur (cur + min (e - cur) (s + l - cur))),
        by rw [prependAt_length]; exact hplen, ?_, ?_, ?_⟩
      · simp only [copyLoop, if_pos hce]
        rw [hfs]
        show copyLoop fuel
            (appendAt nt idx (strSlice t cur (cur + min (e - cur) (s + l - cur))))
            (slotsAux texts 0) t (cur + min (e - cur) (s + l - cur)) e = _
        rw [heq]
        exact zipWith_appendAt_prependAt nt parts idx _ hplen.symm
      · rw [flatten_prependAt parts idx _ (by omega) ?_]
        · rw [hflat]
          exact strSlice_append t cur (cur + min (e - cur) (s + l - cur)) e
            (by omega) (by omega)
        · intro j y hj hy
          by_contra hyne
          obtain ⟨s2, l2, hs2, hgt2, _, _⟩ := hsupp j y hy hyne
          have := slots_mono texts 0 j idx s2 l2 s l hj hs2 hslot
          omega
      · intro j x hx hne
        by_cases hji : j = idx
        · subst hji
          exact ⟨s, l, hslot, by omega, by omega, by omega⟩
        · rw [prependAt_get_ne parts idx j _ hji] at hx
          obtain ⟨s2, l2, hs2, hgt2, hlt2, hl2⟩ := hsupp j x hx hne
          exact ⟨s2, l2, hs2, by omega, hlt2, hl2⟩
    · refine ⟨List.replicate nt.length [], by simp, ?_, ?_, ?_⟩
      · rw [show copyLoop (fuel + 1) nt (slotsAux texts 0) t cur e = nt from by
          simp only [copyLoop, if_neg hce]]
        exact (zipWith_append_replicate_nil nt).symm
      · simp [strSlice_nil_of_le t cur e (by omega)]
      · intro j x hx hne
        exact absurd (replicate_get_inv nt.length j [] x hx) hne

theorem copy_parts (texts : List (List Char)) (t : List Char)
    (nt : List (List Char)) (start e : Nat)
    (he : e ≤ (texts.map List.length).sum) (hlen : nt.length = texts.length) :
    ∃ parts : List (List Char),
      parts.length = nt.length ∧
      _copy_non_placeholder nt (slotsAux texts 0) t start e
        = List.zipWith (· ++ ·) nt parts ∧
      parts.flatten = strSlice t start e ∧
      (∀ (j : Nat) (x : List Char), parts[j]? = some x → x ≠ [] →
        ∃ (s l : Nat), (slotsAux texts 0)[j]? = some (s, l) ∧ start < s + l ∧ s < e ∧ l ≠ 0) :=
  copyLoop_parts texts t (e - start) start e nt (by omega) he hlen

theorem copy_step (texts : List (List Char)) (t : List Char)
    (nt : List (List Char)) (cur e : Nat)
    (hcur : cur ≤ e) (he : e ≤ (texts.map List.length).sum)
    (hlen : nt.length = texts.length) (hclean : Clean texts nt cur) :
    (_copy_non_placeholder nt (slotsAux texts 0) t cur e).length = nt.length ∧
    (_copy_non_placeholder nt (slotsAux texts 0) t cur e).flatten
      = nt.flatten ++ strSlice t cur e ∧
    Clean texts (_copy_non_placeholder nt (slotsAux texts 0) t cur e) e ∧
    (∀ j : Nat, texts[j]? = some [] →
      (_copy_non_placeholder nt (slotsAux texts 0) t cur e)[j]? = nt[j]?) := by
  obtain ⟨parts, hplen, heq, hflat, hsupp⟩ := copy_parts texts t nt cur e he hlen
  rw [heq]
  refine ⟨?_, ?_, ?_, ?_⟩
  · rw [List.length_zipWith]
    omega
  · rw [flatten_zipWith_append nt parts hplen.symm ?_, hflat]
    intro j k x y hjk hx hxne hy
    obtain ⟨s2, l2, hs2, hgt2, _, _⟩ := hsupp j x hx hxne
    have hk : k < (slotsAux texts 0).length := by
      rw [slotsAux_length]
      rw [← hlen]
      exact getElem_some_lt hy
    obtain ⟨sl, hksl⟩ := getElem_exists_of_lt hk
    obtain ⟨sk, lk⟩ := sl
    have hmono := slots_mono texts 0 j k s2 l2 sk lk hjk hs2 hksl
    have := hclean k sk lk hksl (by omega)
    rw [hy] at this
    simpa using this.symm
  · intro j s l hj hle
    have hjlt : j < parts.length := by
      have := getElem_some_lt hj
      rw [slotsAux_length] at this
      omega
    obtain ⟨x, hx⟩ := getElem_exists_of_lt hjlt
    by_cases hxe : x = []
    · subst hxe
      have hntj := hclean j s l hj (by omega)
      rw [zipWith_get nt parts j [] [] hntj hx]
      simp
    · obtain ⟨s2, l2, hs2, _, hlt2, _⟩ := hsupp j x hx hxe
      rw [hj] at hs2
      simp only [Option.some_inj, Prod.mk.injEq] at hs2
      omega
  · intro j hj0
    have hjt : j < texts.length := getElem_some_lt hj0
    obtain ⟨x, hx⟩ := getElem_exists_of_lt (show j < parts.length by omega)
    obtain ⟨s0, hs0⟩ := slots_get_of_text texts 0 j [] hj0
    by_cases hxe : x = []
    · subst hxe
      obtain ⟨old, hold⟩ := getElem_exists_of_lt (show j < nt.length by omega)
      rw [zipWith_get nt parts j old [] hold hx, hold]
      simp
    · obtain ⟨s2, l2, hs2, _, _, hl2⟩ := hsupp j x hx hxe
      rw [hs0] at hs2
      simp only [Option.some_inj, Prod.mk.injEq] at hs2
      simp at hs2
      omega

/-! ### Covered runs of an occurrence -/

theorem mem_le_sum (l : List Nat) (x : Nat) (h : x ∈ l) : x ≤ l.sum := by
  induction l with
  | nil => simp at h
  | cons a l ih =>
    rcases List.mem_cons.mp h with h | h
    · simp [h]
    · have := ih h
      simp
      omega

theorem coveredAux_mem (slots : List (Nat × Nat)) (os oe : Nat) :
    ∀ (i j pl : Nat), (j, pl) ∈ coveredAux slots i os oe →
    ∃ (s l : Nat), i ≤ j ∧ slots[j - i]? = some (s, l) ∧ os < s + l ∧ s < oe ∧
      pl = min (s + l) oe - max s os := by
  induction slots with
  | nil => intro i j pl h; simp [coveredAux] at h
  | cons p rest ih =>
    intro i j pl h
    obtain ⟨ps, pl2⟩ := p
    by_cases hc : os < ps + pl2 ∧ ps < oe
    · simp only [coveredAux] at h
      rw [if_pos hc] at h
      rcases List.mem_cons.mp h with h | h
      · obtain ⟨h1, h2⟩ : j = i ∧ pl = min (ps + pl2) oe - max ps os := by
          simpa using h
        subst h1
        exact ⟨ps, pl2, Nat.le_refl _, by simp, hc.1, hc.2, h2⟩
      · obtain ⟨s, l, hij, hsl, h3, h4, h5⟩ := ih (i + 1) j pl h
        refine ⟨s, l, by omega, ?_, h3, h4, h5⟩
        have hji : j - i = (j - (i + 1)) + 1 := by omega
        rw [hji]
        simpa using hsl
    · simp only [coveredAux] at h
      rw [if_neg hc] at h
      obtain ⟨s, l, hij, hsl, h3, h4, h5⟩ := ih (i + 1) j pl h
      refine ⟨s, l, by omega, ?_, h3, h4, h5⟩
      have hji : j - i = (j - (i + 1)) + 1 := by omega
      rw [hji]
      simpa using hsl

theorem coveredAux_mem_intro (slots : List (Nat × Nat)) (os oe : Nat) :
    ∀ (i k s l : Nat), slots[k]? = some (s, l) → os < s + l → s < oe →
    (i + k, min (s + l) oe - max s os) ∈ coveredAux slots i os oe := by
  induction slots with
  | nil => intro i k s l h; simp at h
  | cons p rest ih =>
    intro i k s l h h1 h2
    obtain ⟨ps, pl2⟩ := p
    cases k with
    | zero =>
      simp only [List.getElem?_cons_zero, Option.some_inj, Prod.mk.injEq] at h
      obtain ⟨h3, h4⟩ := h
      subst h3; subst h4
      simp only [coveredAux]
      rw [if_pos ⟨h1, h2⟩]
      simp
    | succ k =>
      simp only [List.getElem?_cons_succ] at h
      have := ih (i + 1) k s l h h1 h2
      have harith : i + 1 + k = i + (k + 1) := by omega
      rw [harith] at this
      by_cases hc : os < ps + pl2 ∧ ps < oe
      · simp only [coveredAux]
        rw [if_pos hc]
        exact List.mem_cons_of_mem _ this
      · simp only [coveredAux]
        rw [if_neg hc]
        exact this

theorem coveredAux_index_ge (slots : List (Nat × Nat)) (os oe : Nat) :
    ∀ (i : Nat) (p : Nat × Nat), p ∈ coveredAux slots i os oe → i ≤ p.1 := by
  induction slots with
  | nil => intro i p h; simp [coveredAux] at h
  | cons q rest ih =>
    intro i p h
    obtain ⟨ps, pl2⟩ := q
    by_cases hc : os < ps + pl2 ∧ ps < oe
    · simp only [coveredAux] at h
      rw [if_pos hc] at h
      rcases List.mem_cons.mp h with h | h
      · simp [h]
      · have := ih (i + 1) p h
        omega
    · simp only [coveredAux] at h
      rw [if_neg hc] at h
      have := ih (i + 1) p h
      omega

theorem coveredAux_pairwise (slots : List (Nat × Nat)) (os oe : Nat) :
    ∀ i : Nat, List.Pairwise (fun p q => p.1 < q.1) (coveredAux slots i os oe) := by
  induction slots with
  | nil => intro i; simp [coveredAux]
  | cons q rest ih =>
    intro i
    obtain ⟨ps, pl2⟩ := q
    by_cases hc : os < ps + pl2 ∧ ps < oe
    · simp only [coveredAux]
      rw [if_pos hc]
      refine List.pairwise_cons.mpr ⟨?_, ih (i + 1)⟩
      intro p hp
      have := coveredAux_index_ge rest os oe (i + 1) p hp
      simp
      omega
    · simp only [coveredAux]
      rw [if_neg hc]
      exact ih (i + 1)

theorem pairwise_fst_lt_getElem (cs : List (Nat × Nat)) :
    List.Pairwise (fun p q => p.1 < q.1) cs →
    ∀ (k1 k2 : Nat) (p1 p2 : Nat × Nat),
    cs[k1]? = some p1 → cs[k2]? = some p2 → k1 < k2 →
    p1.1 < p2.1 := by
  induction cs with
  | nil => intro _ k1 k2 p1 p2 h1; simp at h1
  | cons a cs ih =>
    intro hp k1 k2 p1 p2 h1 h2 hk
    obtain ⟨ha, hcs⟩ := List.pairwise_cons.mp hp
    cases k1 with
    | zero =>
      simp only [List.getElem?_cons_zero, Option.some_inj] at h1
      subst h1
      cases k2 with
      | zero => omega
      | succ k2 =>
        simp only [List.getElem?_cons_succ] at h2
        exact ha p2 (mem_of_getElem h2)
    | succ k1 =>
      cases k2 with
      | zero => omega
      | succ k2 =>
        simp only [List.getElem?_cons_succ] at h1 h2
        exact ih hcs k1 k2 p1 p2 h1 h2 (by omega)

theorem pairwise_last_max (cs : List (Nat × Nat)) (k j pl : Nat)
    (hp : List.Pairwise (fun p q => p.1 < q.1) cs)
    (hk : cs[k]? = some (j, pl)) (hlast : k + 1 = cs.length) :
    ∀ p ∈ cs, p.1 ≤ j := by
  intro p hmem
  obtain ⟨k2, hk2⟩ := getElem_of_mem hmem
  have hk2lt : k2 < cs.length := getElem_some_lt hk2
  rcases Nat.lt_or_ge k2 k with hlt | hge
  · have := pairwise_fst_lt_getElem cs hp k2 k p (j, pl) hk2 hk hlt
    simp at this
    omega
  · have hk2e : k2 = k := by omega
    subst hk2e
    rw [hk] at hk2
    simp only [Option.some_inj] at hk2
    rw [← hk2]

theorem covered_total_pos (texts : List (List Char)) (os oe : Nat)
    (hos : os < oe) (hoe : oe ≤ (texts.map List.length).sum) :
    totalCovered (slotsAux texts 0) os oe ≠ 0 := by
  obtain ⟨j, s, l, hj, hs, hl⟩ := slots_contain texts 0 os (by omega) (by omega)
  have hmem := coveredAux_mem_intro (slotsAux texts 0) os oe 0 j s l hj
    (by omega) (by omega)
  have hple : min (s + l) oe - max s os ≤ ((coveredAux (slotsAux texts 0) 0 os oe).map Prod.snd).sum := by
    apply mem_le_sum
    exact List.mem_map_of_mem Prod.snd hmem
  unfold totalCovered
  omega

theorem covered_last_pos (texts : List (List Char)) (os oe k j pl : Nat)
    (hos : os < oe) (hoe : oe ≤ (texts.map List.length).sum)
    (hk : (coveredAux (slotsAux texts 0) 0 os oe)[k]? = some (j, pl))
    (hlast : k + 1 = (coveredAux (slotsAux texts 0) 0 os oe).length) :
    1 ≤ pl := by
  obtain ⟨s, l, _, hslot, hosl, hsoe, hpl⟩ :=
    coveredAux_mem (slotsAux texts 0) os oe 0 j pl (mem_of_getElem hk)
  rw [Nat.sub_zero] at hslot
  obtain ⟨j3, s3, l3, hj3, hs3, hl3⟩ :=
    slots_contain texts 0 (oe - 1) (by omega) (by omega)
  have hmem3 := coveredAux_mem_intro (slotsAux texts 0) os oe 0 j3 s3 l3 hj3
    (by omega) (by omega)
  have hj3le : j3 ≤ j := by
    have := pairwise_last_max (coveredAux (slotsAux texts 0) 0 os oe) k j pl
      (coveredAux_pairwise (slotsAux texts 0) os oe 0) hk hlast
      (0 + j3, min (s3 + l3) oe - max s3 os) hmem3
    simpa using this
  rcases Nat.lt_or_ge j3 j with hlt | hge
  · have := slots_mono texts 0 j3 j s3 l3 s l hlt hj3 hslot
    omega
  · have hj3e : j3 = j := by omega
    subst hj3e
    rw [hslot] at hj3
    simp only [Option.some_inj, Prod.mk.injEq] at hj3
    omega

/-! ### Value distribution over the covered runs -/

theorem allocLoop_skip (v : List Char) (rl tot : Nat) :
    ∀ (cs : List (Nat × Nat)) (a : Nat) (nt : List (List Char)) (j : Nat),
    (∀ p ∈ cs, p.1 ≠ j) →
    (allocLoop v rl tot nt cs a)[j]? = nt[j]? := by
  intro cs
  induction cs with
  | nil => intro a nt j _; rfl
  | cons p rest ih =>
    intro a nt j hne
    obtain ⟨idx, pl⟩ := p
    simp only [allocLoop]
    rw [ih _ _ j (fun q hq => hne q (List.mem_cons_of_mem _ hq))]
    exact appendAt_get_ne nt idx j _ (fun hc => hne (idx, pl) (by simp) (by simp [hc]))

theorem allocLoop_get (v : List Char) (rl tot : Nat) :
    ∀ (cs : List (Nat × Nat)) (a : Nat) (nt : List (List Char)) (k j pl : Nat),
    List.Pairwise (fun p q => p.1 < q.1) cs →
    cs[k]? = some (j, pl) →
    (allocLoop v rl tot nt cs a)[j]?
      = (nt[j]?).map (fun old => old ++
          strSlice v (a + ((allocLens rl tot cs a).take k).sum)
            (a + ((allocLens rl tot cs a).take k).sum + (allocLens rl tot cs a).getD k 0)) := by
  intro cs
  induction cs with
  | nil => intro a nt k j pl _ hk; simp at hk
  | cons p rest ih =>
    intro a nt k j pl hp hk
    obtain ⟨idx, pl0⟩ := p
    obtain ⟨hhead, htail⟩ := List.pairwise_cons.mp hp
    cases k with
    | zero =>
      simp only [List.getElem?_cons_zero, Option.some_inj, Prod.mk.injEq] at hk
      obtain ⟨hk1, hk2⟩ := hk
      subst hk1
      simp only [allocLoop, allocLens]
      rw [allocLoop_skip v rl tot rest _ _ idx
        (fun q hq => by have := hhead q hq; omega)]
      rw [appendAt_get_self]
      simp
    | succ k =>
      simp only [List.getElem?_cons_succ] at hk
      have hne : idx ≠ j := by
        have := hhead (j, pl) (mem_of_getElem hk)
        simp at this
        omega
      simp only [allocLoop, allocLens]
      rw [ih _ _ k j pl htail hk]
      rw [appendAt_get_ne nt idx j _ (fun hc => hne hc.symm)]
      have harith : ∀ x : Nat,
          a + (x + (((allocLens rl tot rest (a + x)).take k).sum))
            = a + x + ((allocLens rl tot rest (a + x)).take k).sum := by
        intro x; omega
      simp [List.sum_cons, harith]

theorem allocLoop_parts (v : List Char) (rl tot : Nat) :
    ∀ (cs : List (Nat × Nat)) (a : Nat) (nt : List (List Char)),
    List.Pairwise (fun p q => p.1 < q.1) cs →
    (∀ p ∈ cs, p.1 < nt.length) →
    ∃ parts : List (List Char),
      parts.length = nt.length ∧
      allocLoop v rl tot nt cs a = List.zipWith (· ++ ·) nt parts ∧
      (rl = v.length → cs ≠ [] → parts.flatten = v.drop a) ∧
      (∀ j : Nat, j < nt.length → (∀ pl : Nat, (j, pl) ∉ cs) → parts[j]? = some []) ∧
      (∀ (k j pl : Nat), cs[k]? = some (j, pl) → pl = 0 → k + 1 < cs.length →
        parts[j]? = some []) := by
  intro cs
  induction cs with
  | nil =>
    intro a nt _ _
    refine ⟨List.replicate nt.length [], by simp, ?_, ?_, ?_, ?_⟩
    · exact (zipWith_append_replicate_nil nt).symm
    · intro _ hne; exact absurd rfl hne
    · intro j hj _; exact replicate_get nt.length j [] hj
    · intro k j pl hk; simp at hk
  | cons p rest ih =>
    intro a nt hp hbound
    obtain ⟨idx, pl0⟩ := p
    obtain ⟨hhead, htail⟩ := List.pairwise_cons.mp hp
    have hidx : idx < nt.length := hbound (idx, pl0) (by simp)
    obtain ⟨parts', hplen, heq, hflat, h4', h5'⟩ :=
      ih (a + (if rest.isEmpty then rl - a else pyRound pl0 rl tot))
        (appendAt nt idx
          (strSlice v a (a + (if rest.isEmpty then rl - a else pyRound pl0 rl tot))))
        htail
        (fun q hq => by rw [appendAt_length]; exact hbound q (List.mem_cons_of_mem _ hq))
    rw [appendAt_length] at hplen
    refine ⟨prependAt parts' idx
        (strSlice v a (a + (if rest.isEmpty then rl - a else pyRound pl0 rl tot))),
      by rw [prependAt_length]; exact hplen, ?_, ?_, ?_, ?_⟩
    · simp only [allocLoop]
      rw [heq]
      exact zipWith_appendAt_prependAt nt parts' idx _ hplen.symm
    · intro hrl _
      rw [flatten_prependAt parts' idx _ (by omega) ?_]
      · cases rest with
        | nil =>
          have hflatnil : parts'.flatten = [] := by
            apply flatten_eq_nil_of_all_nil
            intro z hz
            obtain ⟨j, hj⟩ := getElem_of_mem hz
            have hjlt : j < nt.length := by
              have := getElem_some_lt hj
              omega
            have := h4' j (by rwa [appendAt_length]) (fun pl hmem => by simp at hmem)
            rw [hj] at this
            simpa using this.symm
          have hie2 : (if (([] : List (Nat × Nat)).isEmpty) = true
              then rl - a else pyRound pl0 rl tot) = rl - a := by simp
          rw [hie2, hflatnil, hrl, strSlice_drop_of_len v a]
          simp
        | cons r rest2 =>
          rw [if_neg (by simp : ¬(((r :: rest2).isEmpty) = true))] at hflat ⊢
          rw [hflat hrl (by simp)]
          exact strSlice_append_drop v a (pyRound pl0 rl tot)
      · intro j y hj hy
        have hjne : ∀ pl : Nat, (j, pl) ∉ rest := by
          intro pl hmem
          have := hhead (j, pl) hmem
          simp at this
          omega
        have := h4' j (by rw [appendAt_length]; omega) hjne
        rw [hy] at this
        simpa using this.symm
    · intro j hj hnot
      have hjne : j ≠ idx := by
        intro hc
        exact hnot pl0 (by rw [hc]; simp)
      rw [prependAt_get_ne parts' idx j _ hjne]
      exact h4' j (by rwa [appendAt_length])
        (fun pl hmem => hnot pl (List.mem_cons_of_mem _ hmem))
    · intro k j2 pl2 hk hpl2 hklt
      cases k with
      | zero =>
        simp only [List.getElem?_cons_zero, Option.some_inj, Prod.mk.injEq] at hk
        obtain ⟨hk1, hk2⟩ := hk
        have hie : rest.isEmpty = false := by
          cases rest with
          | nil => simp at hklt
          | cons _ _ => simp
        have hal : (if rest.isEmpty = true then rl - a else pyRound pl0 rl tot) = 0 := by
          rw [hie]
          have hpl0 : pl0 = 0 := by omega
          rw [hpl0]
          simp [pyRound_zero]
        rw [← hk1]
        rw [prependAt_get_self]
        rw [hal]
        rw [strSlice_nil_of_le v a (a + 0) (by omega)]
        have hp4 := h4' idx (by rwa [appendAt_length])
          (fun pl hmem => by have := hhead (idx, pl) hmem; simp at this)
        rw [hp4]
        simp
      | succ k =>
        simp only [List.getElem?_cons_succ] at hk
        have hjne : j2 ≠ idx := by
          have := hhead (j2, pl2) (mem_of_getElem hk)
          simp at this
          omega
        rw [prependAt_get_ne parts' idx j2 _ hjne]
        refine h5' k j2 pl2 hk hpl2 ?_
        simp only [List.length_cons] at hklt
        omega

theorem alloc_step (texts : List (List Char)) (nt : List (List Char))
    (ph : Placeholder) (os oe : Nat)
    (hlen : nt.length = texts.length) (hos : os < oe)
    (hoe : oe ≤ (texts.map List.length).sum)
    (hrl : ph.rendered_length = ph.rendered_value.length)
    (hclean : Clean texts nt os) :
    (_allocate_rendered_value nt (slotsAux texts 0) ph os oe).length = nt.length ∧
    (_allocate_rendered_value nt (slotsAux texts 0) ph os oe).flatten
      = nt.flatten ++ ph.rendered_value ∧
    Clean texts (_allocate_rendered_value nt (slotsAux texts 0) ph os oe) oe ∧
    (∀ j : Nat, texts[j]? = some [] →
      (_allocate_rendered_value nt (slotsAux texts 0) ph os oe)[j]? = nt[j]?) := by
  have htot := covered_total_pos texts os oe hos hoe
  have hbound : ∀ p ∈ coveredAux (slotsAux texts 0) 0 os oe, p.1 < nt.length := by
    intro p hp
    obtain ⟨s, l, _, hslot, _, _, _⟩ :=
      coveredAux_mem (slotsAux texts 0) os oe 0 p.1 p.2 (by simpa using hp)
    rw [Nat.sub_zero] at hslot
    have := getElem_some_lt hslot
    rw [slotsAux_length] at this
    omega
  obtain ⟨parts, hplen, heq, hflat, h4, h5⟩ :=
    allocLoop_parts ph.rendered_value ph.rendered_length
      (totalCovered (slotsAux texts 0) os oe)
      (coveredAux (slotsAux texts 0) 0 os oe) 0 nt
      (coveredAux_pairwise (slotsAux texts 0) os oe 0) hbound
  have hcsne : coveredAux (slotsAux texts 0) 0 os oe ≠ [] := by
    intro hcs
    apply htot
    unfold totalCovered
    rw [hcs]
    rfl
  unfold _allocate_rendered_value
  rw [if_neg htot, heq]
  refine ⟨?_, ?_, ?_, ?_⟩
  · rw [List.length_zipWith]
    omega
  · rw [flatten_zipWith_append nt parts hplen.symm ?_]
    · rw [hflat hrl hcsne]
      simp
    · intro j k x y hjk hx hxne hy
      have hjlt : j < nt.length := by
        have := getElem_some_lt hx
        omega
      have hmem : ∃ pl : Nat, (j, pl) ∈ coveredAux (slotsAux texts 0) 0 os oe := by
        by_contra hno
        push_neg at hno
        have := h4 j hjlt hno
        rw [hx] at this
        exact hxne (by simpa using this.symm)
      obtain ⟨pl, hmem⟩ := hmem
      obtain ⟨s, l, _, hslot, hosl, _, _⟩ :=
        coveredAux_mem (slotsAux texts 0) os oe 0 j pl hmem
      rw [Nat.sub_zero] at hslot
      have hk : k < (slotsAux texts 0).length := by
        rw [slotsAux_length, ← hlen]
        exact getElem_some_lt hy
      obtain ⟨sl, hksl⟩ := getElem_exists_of_lt hk
      obtain ⟨sk, lk⟩ := sl
      have hmono := slots_mono texts 0 j k s l sk lk hjk hslot hksl
      have := hclean k sk lk hksl (by omega)
      rw [hy] at this
      simpa using this.symm
  · intro j s l hj hle
    have hjlt : j < nt.length := by
      have := getElem_some_lt hj
      rw [slotsAux_length] at this
      omega
    have hnot : ∀ pl : Nat, (j, pl) ∉ coveredAux (slotsAux texts 0) 0 os oe := by
      intro pl hmem
      obtain ⟨s2, l2, _, hslot2, _, hs2oe, _⟩ :=
        coveredAux_mem (slotsAux texts 0) os oe 0 j pl hmem
      rw [Nat.sub_zero] at hslot2
      rw [hj] at hslot2
      simp only [Option.some_inj, Prod.mk.injEq] at hslot2
      omega
    have hpj := h4 j hjlt hnot
    have hnj := hclean j s l hj (by omega)
    rw [zipWith_get nt parts j [] [] hnj hpj]
    simp
  · intro j hj0
    have hjt : j < texts.length := getElem_some_lt hj0
    obtain ⟨s0, hs0⟩ := slots_get_of_text texts 0 j [] hj0
    simp only [List.length_nil] at hs0
    obtain ⟨old, hold⟩ := getElem_exists_of_lt (show j < nt.length by omega)
    by_cases hmem : ∀ pl : Nat, (j, pl) ∉ coveredAux (slotsAux texts 0) 0 os oe
    · have hpj := h4 j (by omega) hmem
      rw [zipWith_get nt parts j old [] hold hpj, hold]
      simp
    · push_neg at hmem
      obtain ⟨pl2, hmem2⟩ := hmem
      obtain ⟨s2, l2, _, hslot2, hos2, hs2oe, hpl2⟩ :=
        coveredAux_mem (slotsAux texts 0) os oe 0 j pl2 hmem2
      rw [Nat.sub_zero] at hslot2
      rw [hs0] at hslot2
      simp only [Option.some_inj, Prod.mk.injEq] at hslot2
      have hl2 : l2 = 0 := hslot2.2.symm
      have hpl0 : pl2 = 0 := by
        subst hl2
        omega
      obtain ⟨k, hk⟩ := getElem_of_mem hmem2
      by_cases hlast : k + 1 = (coveredAux (slotsAux texts 0) 0 os oe).length
      · have := covered_last_pos texts os oe k j pl2 hos hoe hk hlast
        omega
      · have hklt : k + 1 < (coveredAux (slotsAux texts 0) 0 os oe).length := by
          have := getElem_some_lt hk
          omega
        have hpj := h5 k j pl2 hk hpl0 hklt
        rw [zipWith_get nt parts j old [] hold hpj, hold]
        simp

/-! ### Scanner facts -/

theorem closeScan_length : ∀ (l acc c r : List Char), closeScan acc l = some (c, r) →
    ∃ d : List Char, c = acc ++ d ∧ 1 ≤ d.length ∧ d.length + 2 + r.length = l.length := by
  intro l
  induction l with
  | nil => intro acc c r h; simp [closeScan] at h
  | cons ch rest ih =>
    intro acc c r h
    simp only [closeScan] at h
    by_cases hnl : ch = '\n'
    · rw [if_pos hnl] at h; simp at h
    · rw [if_neg hnl] at h
      rcases rest with _ | ⟨c1, _ | ⟨c2, rest2⟩⟩
      · replace h : closeScan (acc ++ [ch]) [] = some (c, r) := h
        simp [closeScan] at h
      · replace h : closeScan (acc ++ [ch]) [c1] = some (c, r) := h
        obtain ⟨d, hd1, hd2, hd3⟩ := ih (acc ++ [ch]) c r h
        exact ⟨ch :: d, by simp [hd1], by simp,
          by simp only [List.length_cons, List.length_nil] at hd3 ⊢; omega⟩
      · by_cases hcc : c1 = '}' ∧ c2 = '}'
        · replace h : (if c1 = '}' ∧ c2 = '}' then some (acc ++ [ch], rest2)
              else closeScan (acc ++ [ch]) (c1 :: c2 :: rest2)) = some (c, r) := h
          rw [if_pos hcc] at h
          simp only [Option.some_inj, Prod.mk.injEq] at h
          refine ⟨[ch], by simp [h.1.symm], by simp, ?_⟩
          rw [← h.2]
          simp
          omega
        · replace h : (if c1 = '}' ∧ c2 = '}' then some (acc ++ [ch], rest2)
              else closeScan (acc ++ [ch]) (c1 :: c2 :: rest2)) = some (c, r) := h
          rw [if_neg hcc] at h
          obtain ⟨d, hd1, hd2, hd3⟩ := ih (acc ++ [ch]) c r h
          exact ⟨ch :: d, by simp [hd1], by simp,
            by simp only [List.length_cons] at hd3 ⊢; omega⟩

theorem WFms_mono (ms : List (Nat × Nat × List Char)) (cur N cur2 : Nat)
    (h : WFms ms cur N) (hle : cur2 ≤ cur) : WFms ms cur2 N := by
  cases h with
  | nil h1 => exact WFms.nil (by omega)
  | cons h1 h2 h3 h4 => exact WFms.cons (by omega) h2 h3 h4

theorem scanAux_wf : ∀ (fuel : Nat) (l : List Char) (i : Nat),
    WFms (scanAux fuel l i) i (i + l.length) := by
  intro fuel
  induction fuel with
  | zero => intro l i; exact WFms.nil (by omega)
  | succ fuel ih =>
    intro l i
    rcases l with _ | ⟨c1, _ | ⟨c2, rest⟩⟩
    · exact WFms.nil (by omega)
    · have hstep : scanAux (fuel + 1) [c1] i = scanAux fuel [] (i + 1) := rfl
      rw [hstep]
      refine WFms_mono _ (i + 1) _ i ?_ (by omega)
      have := ih [] (i + 1)
      simpa using this
    · by_cases hcc : c1 = '{' ∧ c2 = '{'
      · have hstep : scanAux (fuel + 1) (c1 :: c2 :: rest) i
            = match closeScan [] rest with
              | some (c, rest2) =>
                (i, i + 4 + c.length, c) :: scanAux fuel rest2 (i + 4 + c.length)
              | none => scanAux fuel (c2 :: rest) (i + 1) := by
          simp only [scanAux, if_pos hcc]
        rw [hstep]
        cases hcs : closeScan [] rest with
        | none =>
          refine WFms_mono _ (i + 1) _ i ?_ (by omega)
          have := ih (c2 :: rest) (i + 1)
          have harith : i + 1 + (c2 :: rest).length = i + (c1 :: c2 :: rest).length := by
            simp
            omega
          rwa [harith] at this
        | some p =>
          obtain ⟨c, rest2⟩ := p
          obtain ⟨d, hd1, hd2, hd3⟩ := closeScan_length rest [] c rest2 hcs
          simp only [List.nil_append] at hd1
          subst hd1
          refine WFms.cons (by omega) (by omega) ?_ ?_
          · simp
            omega
          · have := ih rest2 (i + 4 + c.length)
            have harith : i + 4 + c.length + rest2.length = i + (c1 :: c2 :: rest).length := by
              simp
              omega
            rwa [harith] at this
      · have hstep : scanAux (fuel + 1) (c1 :: c2 :: rest) i
            = scanAux fuel (c2 :: rest) (i + 1) := by
          simp only [scanAux, if_neg hcc]
        rw [hstep]
        refine WFms_mono _ (i + 1) _ i ?_ (by omega)
        have := ih (c2 :: rest) (i + 1)
        have harith : i + 1 + (c2 :: rest).length = i + (c1 :: c2 :: rest).length := by
          simp
          omega
        rwa [harith] at this

/-! ### Renderer loop facts -/

theorem renderLoop_acc (ctx : Context) (t : List Char) :
    ∀ (ms : List (Nat × Nat × List Char)) (racc : List Char) (le : Nat),
    (renderLoop ctx t ms racc le).1 = racc ++ (renderLoop ctx t ms [] le).1 := by
  intro ms
  induction ms with
  | nil => intro racc le; simp [renderLoop]
  | cons m ms ih =>
    intro racc le
    obtain ⟨s, e, c⟩ := m
    simp only [renderLoop]
    rw [ih ((racc ++ strSlice t le s) ++ ctxGet ctx (pyStrip c)) e]
    rw [ih (([] ++ strSlice t le s) ++ ctxGet ctx (pyStrip c)) e]
    simp [List.append_assoc]

theorem renderLoop_mem_value (ctx : Context) (t : List Char) :
    ∀ (ms : List (Nat × Nat × List Char)) (racc : List Char) (le : Nat)
      (ph : Placeholder), ph ∈ (renderLoop ctx t ms racc le).2 →
    ph.rendered_value = ctxGet ctx ph.placeholder ∧
      ph.rendered_length = ph.rendered_value.length := by
  intro ms
  induction ms with
  | nil => intro racc le ph h; simp [renderLoop] at h
  | cons m ms ih =>
    intro racc le ph h
    obtain ⟨s, e, c⟩ := m
    simp only [renderLoop] at h
    rcases List.mem_cons.mp h with h | h
    · subst h
      exact ⟨rfl, rfl⟩
    · exact ih _ e ph h

theorem renderLoop_map_placeholder (ctx : Context) (t : List Char) :
    ∀ (ms : List (Nat × Nat × List Char)) (racc : List Char) (le : Nat),
    ((renderLoop ctx t ms racc le).2).map Placeholder.placeholder
      = ms.map (fun m => pyStrip m.2.2) := by
  intro ms
  induction ms with
  | nil => intro racc le; simp [renderLoop]
  | cons m ms ih =>
    intro racc le
    obtain ⟨s, e, c⟩ := m
    simp only [renderLoop, List.map_cons]
    rw [ih _ e]

theorem renderLoop_snd_nil (ctx : Context) (t : List Char)
    (ms : List (Nat × Nat × List Char)) (racc : List Char) (le : Nat)
    (h : (renderLoop ctx t ms racc le).2 = []) : ms = [] := by
  cases ms with
  | nil => rfl
  | cons m ms =>
    obtain ⟨s, e, c⟩ := m
    simp [renderLoop] at h

/-! ### The reflow master invariant -/

theorem master (ctx : Context) (texts : List (List Char)) :
    ∀ (ms : List (Nat × Nat × List Char)) (cur : Nat) (racc : List Char)
      (nt : List (List Char)),
    WFms ms cur (texts.map List.length).sum →
    nt.length = texts.length →
    Clean texts nt cur →
    (replaceLoop (slotsAux texts 0) texts.flatten
        ((renderLoop ctx texts.flatten ms racc cur).2) nt cur).length = nt.length ∧
    (replaceLoop (slotsAux texts 0) texts.flatten
        ((renderLoop ctx texts.flatten ms racc cur).2) nt cur).flatten
      = nt.flatten ++ (renderLoop ctx texts.flatten ms [] cur).1 ∧
    (∀ j : Nat, texts[j]? = some [] →
      (replaceLoop (slotsAux texts 0) texts.flatten
        ((renderLoop ctx texts.flatten ms racc cur).2) nt cur)[j]? = nt[j]?) := by
  have hflatlen : texts.flatten.length = (texts.map List.length).sum :=
    List.length_flatten texts
  intro ms
  induction ms with
  | nil =>
    intro cur racc nt hwf hlen hclean
    have hcur : cur ≤ (texts.map List.length).sum := by
      cases hwf with
      | nil h => exact h
    simp only [renderLoop, replaceLoop]
    obtain ⟨hc1, hc2, _, hc4⟩ := copy_step texts texts.flatten nt cur
      texts.flatten.length (by omega) (by omega) hlen hclean
    refine ⟨hc1, ?_, hc4⟩
    rw [hc2]
    have hslice : strSlice texts.flatten cur texts.flatten.length
        = texts.flatten.drop cur := by
      unfold strSlice
      rw [List.take_length]
    rw [hslice]
    simp
  | cons m ms ih =>
    intro cur racc nt hwf hlen hclean
    obtain ⟨s, e, c⟩ := m
    cases hwf with
    | cons hcs hse heN hwf2 =>
    simp only [renderLoop, replaceLoop]
    have harith : s + (e - s) = e := by omega
    rw [harith]
    obtain ⟨hc1, hc2, hc3, hc4⟩ := copy_step texts texts.flatten nt cur s
      (by omega) (by omega) hlen hclean
    obtain ⟨ha1, ha2, ha3, ha4⟩ := alloc_step texts
      (_copy_non_placeholder nt (slotsAux texts 0) texts.flatten cur s)
      { original_start := s, original_length := e - s,
        rendered_start := (racc ++ strSlice texts.flatten cur s).length,
        rendered_length := (ctxGet ctx (pyStrip c)).length,
        placeholder := pyStrip c, rendered_value := ctxGet ctx (pyStrip c) }
      s e (by omega) (by omega) (by omega) rfl hc3
    obtain ⟨ih1, ih2, ih3⟩ := ih e ((racc ++ strSlice texts.flatten cur s)
        ++ ctxGet ctx (pyStrip c))
      (_allocate_rendered_value
        (_copy_non_placeholder nt (slotsAux texts 0) texts.flatten cur s)
        (slotsAux texts 0)
        { original_start := s, original_length := e - s,
          rendered_start := (racc ++ strSlice texts.flatten cur s).length,
          rendered_length := (ctxGet ctx (pyStrip c)).length,
          placeholder := pyStrip c, rendered_value := ctxGet ctx (pyStrip c) }
        s e)
      hwf2 (by omega) ha3
    refine ⟨?_, ?_, ?_⟩
    · rw [ih1, ha1, hc1]
    · rw [ih2, ha2, hc2]
      rw [renderLoop_acc ctx texts.flatten ms
        (([] ++ strSlice texts.flatten cur s) ++ ctxGet ctx (pyStrip c)) e]
      simp [List.append_assoc]
    · intro j hj
      rw [ih3 j hj, ha4 j hj, hc4 j hj]

/-! ### Committing the new texts back into the runs -/

theorem zipWith_update_map_text {σ : Type} (runs : List (Run σ))
    (nts : List (List Char)) (h : nts.length = runs.length) :
    (List.zipWith (fun r t => { r with text := t }) runs nts).map Run.text = nts := by
  induction runs generalizing nts with
  | nil => cases nts with | nil => simp | cons _ _ => simp at h
  | cons r runs ih =>
    cases nts with
    | nil => simp at h
    | cons t nts => simp [ih nts (by simpa using h)]

theorem zipWith_update_map_style {σ : Type} (runs : List (Run σ))
    (nts : List (List Char)) (h : nts.length = runs.length) :
    (List.zipWith (fun r t => { r with text := t }) runs nts).map Run.style
      = runs.map Run.style := by
  induction runs generalizing nts with
  | nil => simp
  | cons r runs ih =>
    cases nts with
    | nil => simp at h
    | cons t nts => simp [ih nts (by simpa using h)]

theorem zipWith_update_get {σ : Type} (runs : List (Run σ))
    (nts : List (List Char)) (i : Nat) (r : Run σ) (x : List Char)
    (hr : runs[i]? = some r) (hx : nts[i]? = some x) :
    (List.zipWith (fun q t => { q with text := t }) runs nts)[i]? =
      some { r with text := x } := by
  induction runs generalizing nts i with
  | nil => simp at hr
  | cons q runs ih =>
    cases nts with
    | nil => simp at hx
    | cons t nts =>
      cases i with
      | zero => simp at hr hx; simp [hr, hx]
      | succ i =>
        simp only [List.getElem?_cons_succ] at hr hx
        simpa using ih nts i hr hx

theorem replace_unfold {σ : Type} (ctx : Context) (runs : List (Run σ)) :
    replace_paragraph_runs ctx runs =
      if (cal_render_position ctx ((runs.map Run.text).flatten)).2.isEmpty then runs
      else List.zipWith (fun r t => { r with text := t }) runs
        (replaceLoop (slotsAux (runs.map Run.text) 0) ((runs.map Run.text).flatten)
          ((cal_render_position ctx ((runs.map Run.text).flatten)).2)
          (List.replicate runs.length []) 0) := rfl

theorem replace_master {σ : Type} (ctx : Context) (runs : List (Run σ)) :
    (replaceLoop (slotsAux (runs.map Run.text) 0) ((runs.map Run.text).flatten)
        ((cal_render_position ctx ((runs.map Run.text).flatten)).2)
        (List.replicate runs.length []) 0).length = runs.length ∧
    (replaceLoop (slotsAux (runs.map Run.text) 0) ((runs.map Run.text).flatten)
        ((cal_render_position ctx ((runs.map Run.text).flatten)).2)
        (List.replicate runs.length []) 0).flatten
      = (cal_render_position ctx ((runs.map Run.text).flatten)).1 ∧
    (∀ j : Nat, (runs.map Run.text)[j]? = some [] →
      (replaceLoop (slotsAux (runs.map Run.text) 0) ((runs.map Run.text).flatten)
        ((cal_render_position ctx ((runs.map Run.text).flatten)).2)
        (List.replicate runs.length []) 0)[j]? = some []) := by
  unfold cal_render_position
  have hwf : WFms (scan ((runs.map Run.text).flatten)) 0
      ((runs.map Run.text).map List.length).sum := by
    have := scanAux_wf (((runs.map Run.text).flatten).length + 1)
      ((runs.map Run.text).flatten) 0
    rw [show (0 + ((runs.map Run.text).flatten).length
        = ((runs.map Run.text).map List.length).sum) from by
      rw [List.length_flatten]; omega] at this
    exact this
  have hlen : (List.replicate runs.length ([] : List Char)).length
      = (runs.map Run.text).length := by simp
  have hclean : Clean (runs.map Run.text) (List.replicate runs.length []) 0 := by
    intro j s l hj _
    have := getElem_some_lt hj
    rw [slotsAux_length, List.length_map] at this
    exact replicate_get runs.length j [] this
  obtain ⟨h1, h2, h3⟩ := master ctx (runs.map Run.text)
    (scan ((runs.map Run.text).flatten)) 0 [] (List.replicate runs.length [])
    hwf hlen hclean
  refine ⟨by rw [h1]; simp, ?_, ?_⟩
  · rw [h2]
    simp
  · intro j hj
    rw [h3 j hj]
    have := getElem_some_lt hj
    rw [List.length_map] at this
    exact replicate_get runs.length j [] this

/-- Claim C1: for every paragraph, after reflow the concatenation of the
    run texts (in run order) equals exactly the rendered text the Resolver
    returns for the concatenated source text, so every character of the
    rendered text is assigned to exactly one run, with no gaps, overlaps,
    or unplaced characters. -/
theorem claim_C1 {σ : Type} (ctx : Context) (runs : List (Run σ)) :
    ((replace_paragraph_runs ctx runs).map Run.text).flatten
      = (cal_render_position ctx ((runs.map Run.text).flatten)).1 := by
  rw [replace_unfold]
  by_cases hemp : (cal_render_position ctx ((runs.map Run.text).flatten)).2.isEmpty = true
  · rw [if_pos hemp]
    have hnil : scan ((runs.map Run.text).flatten) = [] :=
      renderLoop_snd_nil ctx _ _ [] 0 (List.isEmpty_iff.mp hemp)
    show ((runs.map Run.text).flatten)
      = (cal_render_position ctx ((runs.map Run.text).flatten)).1
    unfold cal_render_position
    rw [hnil]
    simp [renderLoop]
  · rw [if_neg hemp]
    obtain ⟨h1, h2, _⟩ := replace_master ctx runs
    rw [zipWith_update_map_text runs _ h1]
    exact h2

/-- Claim C5: a paragraph whose concatenated text yields no placeholder
    match is returned with every run text byte-identical (reflow is the
    identity, no mutation at all). -/
theorem claim_C5 {σ : Type} (ctx : Context) (runs : List (Run σ))
    (h : (cal_render_position ctx ((runs.map Run.text).flatten)).2 = []) :
    replace_paragraph_runs ctx runs = runs := by
  rw [replace_unfold, if_pos (by simp [h])]

/-- Witness for claim C5 at a concrete placeholder-free paragraph. -/
theorem claim_C5_witness :
    (cal_render_position [] (("hello wor".toList : List Char))).2 = [] ∧
    replace_paragraph_runs [] [Run.mk ("hello wor".toList) (0 : Nat)]
      = [Run.mk ("hello wor".toList) 0] :=
  ⟨by decide, claim_C5 [] [Run.mk ("hello wor".toList) 0] (by decide)⟩

/-- Claim C6: reflow never creates or destroys a run and never touches a
    style: the style list is preserved exactly (and so is the run count);
    only text fields may change, and a run that accumulates no text ends
    up empty instead of removed.  Style preservation holds for an
    arbitrary style type, so reflow cannot even inspect a style. -/
theorem claim_C6 {σ : Type} (ctx : Context) (runs : List (Run σ)) :
    (replace_paragraph_runs ctx runs).map Run.style = runs.map Run.style := by
  rw [replace_unfold]
  by_cases hemp : (cal_render_position ctx ((runs.map Run.text).flatten)).2.isEmpty = true
  · rw [if_pos hemp]
  · rw [if_neg hemp]
    obtain ⟨h1, _, _⟩ := replace_master ctx runs
    exact zipWith_update_map_style runs _ h1

/-- Claim C10: a run whose original text is empty still has empty text
    after reflow (and keeps its style): the gap copy never selects a
    zero-length slot, and in value distribution a zero-length slot has
    zero overlap and is never the final overlapping slot. -/
theorem claim_C10 {σ : Type} (ctx : Context) (runs : List (Run σ)) (i : Nat)
    (r : Run σ) (hr : runs[i]? = some r) (ht : r.text = []) :
    ∃ r2 : Run σ, (replace_paragraph_runs ctx runs)[i]? = some r2 ∧
      r2.text = [] ∧ r2.style = r.style := by
  rw [replace_unfold]
  by_cases hemp : (cal_render_position ctx ((runs.map Run.text).flatten)).2.isEmpty = true
  · rw [if_pos hemp]
    exact ⟨r, hr, ht, rfl⟩
  · rw [if_neg hemp]
    obtain ⟨h1, _, h3⟩ := replace_master ctx runs
    have htj : (runs.map Run.text)[i]? = some [] := by
      rw [List.getElem?_map, hr]
      simp [ht]
    exact ⟨{ r with text := [] },
      zipWith_update_get runs _ i r [] hr (h3 i htj), rfl, rfl⟩

/-- Witness for claim C10: the middle empty run of a paragraph with a
    placeholder split across its neighbours stays empty. -/
theorem claim_C10_witness :
    ∃ r2 : Run Nat,
      (replace_paragraph_runs [("k".toList, "xyz".toList)]
        [Run.mk ("a\x7b\x7bk".toList) 0, Run.mk [] 1,
         Run.mk ("\x7d\x7db".toList) 2])[1]? = some r2 ∧
      r2.text = [] ∧ r2.style = (Run.mk ([] : List Char) (1 : Nat)).style :=
  claim_C10 [("k".toList, "xyz".toList)]
    [Run.mk ("a\x7b\x7bk".toList) 0, Run.mk [] 1, Run.mk ("\x7d\x7db".toList) 2]
    1 (Run.mk [] 1) (by decide) (by decide)

/-- Claim C2: for any split of an occurrence's original span across run
    slots, value distribution appends to each run a portion such that the
    concatenation of the portions in run order equals exactly the resolved
    value: no character is dropped and none is duplicated, despite the
    rounded per-slot allocations. -/
theorem claim_C2 (texts nt : List (List Char)) (ph : Placeholder) (os oe : Nat)
    (hlen : nt.length = texts.length) (hos : os < oe)
    (hoe : oe ≤ (texts.map List.length).sum)
    (hrl : ph.rendered_length = ph.rendered_value.length) :
    ∃ parts : List (List Char), parts.length = nt.length ∧
      _allocate_rendered_value nt (slotsAux texts 0) ph os oe
        = List.zipWith (· ++ ·) nt parts ∧
      parts.flatten = ph.rendered_value := by
  have htot := covered_total_pos texts os oe hos hoe
  have hbound : ∀ p ∈ coveredAux (slotsAux texts 0) 0 os oe, p.1 < nt.length := by
    intro p hp
    obtain ⟨s, l, _, hslot, _, _, _⟩ :=
      coveredAux_mem (slotsAux texts 0) os oe 0 p.1 p.2 (by simpa using hp)
    rw [Nat.sub_zero] at hslot
    have := getElem_some_lt hslot
    rw [slotsAux_length] at this
    omega
  obtain ⟨parts, hplen, heq, hflat, _, _⟩ :=
    allocLoop_parts ph.rendered_value ph.rendered_length
      (totalCovered (slotsAux texts 0) os oe)
      (coveredAux (slotsAux texts 0) 0 os oe) 0 nt
      (coveredAux_pairwise (slotsAux texts 0) os oe 0) hbound
  have hcsne : coveredAux (slotsAux texts 0) 0 os oe ≠ [] := by
    intro hcs
    apply htot
    unfold totalCovered
    rw [hcs]
    rfl
  refine ⟨parts, hplen, ?_, ?_⟩
  · unfold _allocate_rendered_value
    rw [if_neg htot]
    exact heq
  · rw [hflat hrl hcsne]
    simp

/-- Witness for claim C2: a value of length three distributed over a span
    split across two runs. -/
theorem claim_C2_witness :
    ∃ parts : List (List Char), parts.length = ([[], []] : List (List Char)).length ∧
      _allocate_rendered_value [[], []] (slotsAux ["ab".toList, "cd".toList] 0)
        ⟨1, 2, 0, 3, "k".toList, "xyz".toList⟩ 1 3
        = List.zipWith (· ++ ·) [[], []] parts ∧
      parts.flatten = (⟨1, 2, 0, 3, "k".toList, "xyz".toList⟩ : Placeholder).rendered_value :=
  claim_C2 ["ab".toList, "cd".toList] [[], []]
    ⟨1, 2, 0, 3, "k".toList, "xyz".toList⟩ 1 3
    (by decide) (by decide) (by decide) (by decide)

/-- Claim C9: when an occurrence's span overlaps no run slot (total
    overlap length zero), value distribution is skipped without error and
    the accumulated texts are returned unchanged, so reflow continues with
    the remaining occurrences. -/
theorem claim_C9 (nt : List (List Char)) (slots : List (Nat × Nat))
    (ph : Placeholder) (os oe : Nat)
    (h : totalCovered slots os oe = 0) :
    _allocate_rendered_value nt slots ph os oe = nt := by
  unfold _allocate_rendered_value
  rw [if_pos h]

/-- Witness for claim C9 with an empty slot table. -/
theorem claim_C9_witness :
    totalCovered [] 0 5 = 0 ∧
    _allocate_rendered_value [["q".toList].flatten] []
      ⟨0, 5, 0, 3, "k".toList, "xyz".toList⟩ 0 5 = [["q".toList].flatten] :=
  ⟨by decide, claim_C9 [["q".toList].flatten] []
    ⟨0, 5, 0, 3, "k".toList, "xyz".toList⟩ 0 5 (by decide)⟩

/-- Claim C7: an occurrence whose trimmed key is absent from the context
    resolves to the empty string, never an error: its rendered value is
    empty and its rendered length zero, so the placeholder span is
    consumed with a zero-length replacement. -/
theorem claim_C7 (ctx : Context) (t : List Char) (ph : Placeholder)
    (hmem : ph ∈ (cal_render_position ctx t).2)
    (habs : ctxLookup ctx ph.placeholder = none) :
    ph.rendered_value = [] ∧ ph.rendered_length = 0 := by
  obtain ⟨hv, hl⟩ := renderLoop_mem_value ctx t (scan t) [] 0 ph hmem
  unfold ctxGet at hv
  rw [habs] at hv
  simp only [Option.getD_none] at hv
  exact ⟨hv, by rw [hl, hv]; rfl⟩

/-- Witness for claim C7 on a placeholder with an unknown key and an
    empty context. -/
theorem claim_C7_witness :
    (⟨0, 11, 0, 0, "unknown".toList, ([] : List Char)⟩ : Placeholder) ∈
      (cal_render_position [] ("\x7b\x7bunknown\x7d\x7d".toList)).2 ∧
    ctxLookup [] ("unknown".toList) = none ∧
    ((⟨0, 11, 0, 0, "unknown".toList, ([] : List Char)⟩ : Placeholder).rendered_value = [] ∧
      (⟨0, 11, 0, 0, "unknown".toList, ([] : List Char)⟩ : Placeholder).rendered_length = 0) :=
  ⟨by decide, by decide,
    claim_C7 [] ("\x7b\x7bunknown\x7d\x7d".toList)
      ⟨0, 11, 0, 0, "unknown".toList, []⟩ (by decide) (by decide)⟩

/-- Claim C8: the example paragraph with runs "Sales: {{sa" and
    "les}} unit" and the context value "980.0" for key sales (the default
    string conversion of the number 980.0) reflows to run texts
    "Sales: 98" and "0.0 unit": run 0 ends with the proportional prefix
    "98" of the value, run 1 begins with the remaining suffix "0.0"
    followed by " unit", and the concatenation equals the rendered text
    "Sales: 980.0 unit" exactly. -/
theorem claim_C8 :
    ((replace_paragraph_runs [("sales".toList, "980.0".toList)]
        [Run.mk ("Sales: \x7b\x7bsa".toList) (0 : Nat),
         Run.mk ("les\x7d\x7d unit".toList) 1]).map Run.text
      = ["Sales: 98".toList, "0.0 unit".toList]) ∧
    "Sales: 98".toList = "Sales: ".toList ++ ("980.0".toList).take 2 ∧
    "0.0 unit".toList = ("980.0".toList).drop 2 ++ " unit".toList ∧
    "Sales: 98".toList ++ "0.0 unit".toList
      = (cal_render_position [("sales".toList, "980.0".toList)]
          ("Sales: \x7b\x7bsa".toList ++ "les\x7d\x7d unit".toList)).1 ∧
    (cal_render_position [("sales".toList, "980.0".toList)]
        ("Sales: \x7b\x7bsa".toList ++ "les\x7d\x7d unit".toList)).1
      = "Sales: 980.0 unit".toList := by
  refine ⟨by decide, by decide, by decide, by decide, by decide⟩

/-! ### Per-slot characterization of the distribution loop -/

theorem getD_of_getElem {α : Type} [Inhabited α] (l : List α) (k : Nat) (p d : α)
    (h : l[k]? = some p) : l.getD k d = p := by
  induction l generalizing k with
  | nil => simp at h
  | cons a l ih =>
    cases k with
    | zero => simp at h; simp [List.getD, h]
    | succ k =>
      simp only [List.getElem?_cons_succ] at h
      simpa [List.getD] using ih k h

theorem allocLens_take_map (rl tot : Nat) :
    ∀ (cs : List (Nat × Nat)) (a k : Nat), k < cs.length →
    (allocLens rl tot cs a).take k
      = (cs.take k).map (fun p => pyRound p.2 rl tot) := by
  intro cs
  induction cs with
  | nil => intro a k h; simp at h
  | cons p cs ih =>
    intro a k h
    cases k with
    | zero => simp
    | succ k =>
      obtain ⟨idx, pl⟩ := p
      have hne : cs.isEmpty = false := by
        cases cs with
        | nil => simp at h
        | cons _ _ => simp
      simp only [allocLens, hne, Bool.false_eq_true, if_false, List.take_succ_cons,
        List.map_cons]
      rw [ih _ k (by simpa using Nat.lt_of_succ_lt_succ h)]

theorem allocLens_getD (rl tot : Nat) :
    ∀ (cs : List (Nat × Nat)) (a k j pl : Nat), cs[k]? = some (j, pl) →
    k + 1 < cs.length →
    (allocLens rl tot cs a).getD k 0 = pyRound pl rl tot := by
  intro cs
  induction cs with
  | nil => intro a k j pl h; simp at h
  | cons p cs ih =>
    intro a k j pl h hlt
    obtain ⟨idx, pl0⟩ := p
    have hne : cs.isEmpty = false := by
      cases cs with
      | nil => simp at hlt
      | cons _ _ => simp
    cases k with
    | zero =>
      simp only [List.getElem?_cons_zero, Option.some_inj, Prod.mk.injEq] at h
      simp [allocLens, hne, List.getD, h.2.symm]
    | succ k =>
      simp only [List.getElem?_cons_succ] at h
      simp only [allocLens, hne, Bool.false_eq_true, if_false]
      simpa [List.getD] using ih _ k j pl h (by simpa using Nat.lt_of_succ_lt_succ hlt)

theorem allocLens_getD_last (rl tot : Nat) :
    ∀ (cs : List (Nat × Nat)) (a k j pl : Nat), cs[k]? = some (j, pl) →
    k + 1 = cs.length →
    (allocLens rl tot cs a).getD k 0
      = rl - (a + ((allocLens rl tot cs a).take k).sum) := by
  intro cs
  induction cs with
  | nil => intro a k j pl h; simp at h
  | cons p cs ih =>
    intro a k j pl h hlast
    obtain ⟨idx, pl0⟩ := p
    cases k with
    | zero =>
      have hnil : cs = [] := by
        simp only [List.length_cons] at hlast
        cases cs with
        | nil => rfl
        | cons _ _ => simp at hlast
      subst hnil
      simp [allocLens, List.getD]
    | succ k =>
      have hne : cs.isEmpty = false := by
        cases cs with
        | nil => simp at hlast
        | cons _ _ => simp
      simp only [List.getElem?_cons_succ] at h
      simp only [allocLens, hne, Bool.false_eq_true, if_false, List.take_succ_cons,
        List.sum_cons, List.getD_cons_succ]
      rw [ih _ k j pl h (by simp only [List.length_cons] at hlast; omega)]
      omega

/-- Claim C3 (amended): during value distribution, the k-th covered slot
    is allocated round(overlap/total * value_length) characters — the
    rounding computed in binary64 arithmetic exactly as the source does —
    from the next unallocated part of the resolved value when it is not
    the last covered slot, receiving exactly that many characters unless
    the value is exhausted first (the slice clamps at the value's end),
    and the last covered slot receives the entire remaining suffix. -/
theorem claim_C3_amended (nt : List (List Char)) (slots : List (Nat × Nat))
    (ph : Placeholder) (os oe k j pl : Nat)
    (hlen : nt.length = slots.length)
    (htot : totalCovered slots os oe ≠ 0)
    (hrl : ph.rendered_length = ph.rendered_value.length)
    (hk : (coveredAux slots 0 os oe)[k]? = some (j, pl)) :
    ∃ old : List Char, nt[j]? = some old ∧
      (_allocate_rendered_value nt slots ph os oe)[j]?
        = some (old ++ specPortion ph.rendered_value ph.rendered_length
            (totalCovered slots os oe) (coveredAux slots 0 os oe) k) := by
  have hjlt : j < nt.length := by
    obtain ⟨s, l, _, hslot, _, _, _⟩ :=
      coveredAux_mem slots os oe 0 j pl (mem_of_getElem hk)
    rw [Nat.sub_zero] at hslot
    have := getElem_some_lt hslot
    omega
  obtain ⟨old, hold⟩ := getElem_exists_of_lt hjlt
  refine ⟨old, hold, ?_⟩
  unfold _allocate_rendered_value
  rw [if_neg htot]
  rw [allocLoop_get ph.rendered_value ph.rendered_length (totalCovered slots os oe)
    (coveredAux slots 0 os oe) 0 nt k j pl (coveredAux_pairwise slots os oe 0) hk]
  rw [hold]
  have hportion : strSlice ph.rendered_value
      (0 + ((allocLens ph.rendered_length (totalCovered slots os oe)
        (coveredAux slots 0 os oe) 0).take k).sum)
      (0 + ((allocLens ph.rendered_length (totalCovered slots os oe)
        (coveredAux slots 0 os oe) 0).take k).sum
        + (allocLens ph.rendered_length (totalCovered slots os oe)
            (coveredAux slots 0 os oe) 0).getD k 0)
      = specPortion ph.rendered_value ph.rendered_length (totalCovered slots os oe)
          (coveredAux slots 0 os oe) k := by
    by_cases hlast : k + 1 = (coveredAux slots 0 os oe).length
    · simp only [specPortion]
      rw [if_pos hlast]
      rw [allocLens_getD_last _ _ _ 0 k j pl hk hlast]
      rw [allocLens_take_map _ _ _ 0 k (getElem_some_lt hk)]
      simp only [Nat.zero_add]
      rw [hrl]
      exact strSlice_drop_of_len ph.rendered_value _
    · simp only [specPortion]
      rw [if_neg hlast]
      rw [allocLens_getD _ _ _ 0 k j pl hk (by have := getElem_some_lt hk; omega)]
      rw [allocLens_take_map _ _ _ 0 k (getElem_some_lt hk)]
      rw [getD_of_getElem _ k (j, pl) (0, 0) hk]
      simp
  rw [hportion]
  rfl

/-- Witness for the amended claim C3: the first of two covered slots with
    equal overlaps receives round(1/2 * 3) = 2 characters of "xyz". -/
theorem claim_C3_amended_witness :
    ∃ old : List Char, ([[], []] : List (List Char))[0]? = some old ∧
      (_allocate_rendered_value [[], []] (slotsAux ["ab".toList, "cd".toList] 0)
        ⟨1, 2, 0, 3, "k".toList, "xyz".toList⟩ 1 3)[0]?
        = some (old ++ specPortion "xyz".toList 3
            (totalCovered (slotsAux ["ab".toList, "cd".toList] 0) 1 3)
            (coveredAux (slotsAux ["ab".toList, "cd".toList] 0) 0 1 3) 0) :=
  claim_C3_amended [[], []] (slotsAux ["ab".toList, "cd".toList] 0)
    ⟨1, 2, 0, 3, "k".toList, "xyz".toList⟩ 1 3 0 0 1
    (by decide) (by decide) (by decide) (by decide)

/-- Counterexample to claim C3 as stated: for the placeholder text split
    into five single-character runs with value "xyz", slot 3 is a
    non-final covered slot with overlap 1 out of 5, so the claim says it
    receives exactly round(1/5 * 3) = 1 character (both in binary64 and
    exact arithmetic); the code allocates its characters from an already
    exhausted prefix, so the slot receives the empty string instead. -/
theorem claim_C3_counterexample :
    _allocate_rendered_value [[], [], [], [], []]
        (slotsAux [['{'], ['{'], ['a'], ['}'], ['}']] 0)
        ⟨0, 5, 0, 3, ['a'], "xyz".toList⟩ 0 5
      = [['x'], ['y'], ['z'], [], []] ∧
    (coveredAux (slotsAux [['{'], ['{'], ['a'], ['}'], ['}']] 0) 0 0 5)[3]?
      = some (3, 1) ∧
    pyRound 1 3 (totalCovered (slotsAux [['{'], ['{'], ['a'], ['}'], ['}']] 0) 0 5)
      = 1 ∧
    ¬ ([] : List Char).length = 1 := by
  refine ⟨by decide, by decide, by decide, by decide⟩

/-! ### The code's group search agrees with the minimal-close search -/

theorem goodK_true_iff (l : List Char) (k : Nat) :
    goodK l k = true ↔ GoodK l k := by
  simp [goodK, closesAt, GoodK, List.all_eq_true]
  tauto

theorem closeScan_none_goodK : ∀ (l acc : List Char), closeScan acc l = none →
    ∀ k : Nat, ¬ GoodK l k := by
  intro l
  induction l with
  | nil =>
    intro acc _ k hg
    obtain ⟨_, hk2, _⟩ := hg
    simp at hk2
  | cons ch rest ih =>
    intro acc h k hg
    simp only [closeScan] at h
    by_cases hnl : ch = '\n'
    · obtain ⟨hk1, _, hk3⟩ := hg
      cases k with
      | zero => omega
      | succ k => exact hk3 ch (by simp) hnl
    · rw [if_neg hnl] at h
      rcases rest with _ | ⟨c1, _ | ⟨c2, rest2⟩⟩
      · obtain ⟨hk1, hk2, _⟩ := hg
        have := congrArg List.length hk2
        simp at this
        omega
      · obtain ⟨hk1, hk2, _⟩ := hg
        have := congrArg List.length hk2
        simp at this
        omega
      · by_cases hcc : c1 = '}' ∧ c2 = '}'
        · replace h : (if c1 = '}' ∧ c2 = '}' then some (acc ++ [ch], rest2)
              else closeScan (acc ++ [ch]) (c1 :: c2 :: rest2)) = none := h
          rw [if_pos hcc] at h
          simp at h
        · replace h : (if c1 = '}' ∧ c2 = '}' then some (acc ++ [ch], rest2)
              else closeScan (acc ++ [ch]) (c1 :: c2 :: rest2)) = none := h
          rw [if_neg hcc] at h
          obtain ⟨hk1, hk2, hk3⟩ := hg
          cases k with
          | zero => omega
          | succ k =>
            cases k with
            | zero =>
              simp at hk2
              exact hcc ⟨hk2.1, hk2.2⟩
            | succ k =>
              apply ih (acc ++ [ch]) h (k + 1)
              refine ⟨by omega, by simpa using hk2, ?_⟩
              intro c hc
              exact hk3 c
                (by simp only [List.take_succ_cons]; exact List.mem_cons_of_mem ch hc)

theorem closeScan_some_goodK : ∀ (l acc c r : List Char),
    closeScan acc l = some (c, r) →
    ∃ k : Nat, c = acc ++ l.take k ∧ r = l.drop (k + 2) ∧ GoodK l k ∧
      ∀ m, m < k → ¬ GoodK l m := by
  intro l
  induction l with
  | nil => intro acc c r h; simp [closeScan] at h
  | cons ch rest ih =>
    intro acc c r h
    simp only [closeScan] at h
    by_cases hnl : ch = '\n'
    · rw [if_pos hnl] at h; simp at h
    · rw [if_neg hnl] at h
      rcases rest with _ | ⟨c1, _ | ⟨c2, rest2⟩⟩
      · replace h : closeScan (acc ++ [ch]) [] = some (c, r) := h
        simp [closeScan] at h
      · replace h : closeScan (acc ++ [ch]) [c1] = some (c, r) := h
        have hnone : closeScan (acc ++ [ch]) [c1] = none := by
          by_cases h1 : c1 = '\n' <;> simp [closeScan, h1]
        rw [hnone] at h
        simp at h
      · by_cases hcc : c1 = '}' ∧ c2 = '}'
        · replace h : (if c1 = '}' ∧ c2 = '}' then some (acc ++ [ch], rest2)
              else closeScan (acc ++ [ch]) (c1 :: c2 :: rest2)) = some (c, r) := h
          rw [if_pos hcc] at h
          simp only [Option.some_inj, Prod.mk.injEq] at h
          refine ⟨1, by simp [h.1.symm], by simp [h.2.symm], ?_, ?_⟩
          · refine ⟨Nat.le_refl 1, by simp [hcc.1, hcc.2], ?_⟩
            intro x hx
            simp at hx
            rw [hx]
            exact hnl
          · intro m hm hg
            obtain ⟨h1, _, _⟩ := hg
            omega
        · replace h : (if c1 = '}' ∧ c2 = '}' then some (acc ++ [ch], rest2)
              else closeScan (acc ++ [ch]) (c1 :: c2 :: rest2)) = some (c, r) := h
          rw [if_neg hcc] at h
          obtain ⟨k, hc, hr, hg, hmin⟩ := ih (acc ++ [ch]) c r h
          obtain ⟨hg1, hg2, hg3⟩ := hg
          refine ⟨k + 1, ?_, ?_, ?_, ?_⟩
          · rw [hc]
            simp [List.append_assoc]
          · rw [hr]
            simp
          · refine ⟨by omega, by simpa using hg2, ?_⟩
            intro x hx
            simp only [List.take_succ_cons] at hx
            rcases List.mem_cons.mp hx with hx | hx
            · rw [hx]; exact hnl
            · exact hg3 x hx
          · intro m hm hgm
            obtain ⟨hm1, hm2, hm3⟩ := hgm
            cases m with
            | zero => omega
            | succ m =>
              cases m with
              | zero =>
                simp at hm2
                exact hcc ⟨hm2.1, hm2.2⟩
              | succ m =>
                apply hmin (m + 1) (by omega)
                refine ⟨by omega, by simpa using hm2, ?_⟩
                intro x hx
                exact hm3 x
                  (by simp only [List.take_succ_cons]; exact List.mem_cons_of_mem ch hx)

theorem range_find?_none (n : Nat) (p : Nat → Bool)
    (h : (List.range n).find? p = none) :
    ∀ m, m < n → p m = false := by
  intro m hm
  have := List.find?_eq_none.mp h m (List.mem_range.mpr hm)
  exact Bool.eq_false_iff.mpr this

theorem range_find?_some (n : Nat) (p : Nat → Bool) (k : Nat)
    (h : (List.range n).find? p = some k) :
    p k = true ∧ ∀ m, m < k → p m = false := by
  induction n with
  | zero => simp at h
  | succ n ih =>
    rw [List.range_succ, List.find?_append] at h
    cases hfr : (List.range n).find? p with
    | some k2 =>
      rw [hfr] at h
      replace h : some k2 = some k := h
      simp only [Option.some_inj] at h
      subst h
      exact ih hfr
    | none =>
      rw [hfr] at h
      replace h : List.find? p [n] = some k := h
      cases hpn : p n with
      | true =>
        rw [List.find?_cons, hpn] at h
        simp only [Option.some_inj] at h
        subst h
        exact ⟨hpn, fun m hm => range_find?_none _ p hfr m hm⟩
      | false =>
        rw [List.find?_cons, hpn] at h
        simp [List.find?] at h

theorem range_find?_some_intro (n : Nat) (p : Nat → Bool) (k : Nat)
    (hk : k < n) (hp : p k = true) (hmin : ∀ m, m < k → p m = false) :
    (List.range n).find? p = some k := by
  induction n with
  | zero => omega
  | succ n ih =>
    rw [List.range_succ, List.find?_append]
    by_cases hkn : k < n
    · rw [ih hkn]
      rfl
    · have hkn2 : k = n := by omega
      subst hkn2
      have hnone : (List.range k).find? p = none := by
        apply List.find?_eq_none.mpr
        intro x hx
        have := hmin x (List.mem_range.mp hx)
        simp [this]
      rw [hnone]
      show List.find? p [k] = some k
      rw [List.find?_cons, hp]

theorem firstClose_eq_none (l : List Char) (h : ∀ k : Nat, ¬ GoodK l k) :
    firstClose l = none := by
  apply List.find?_eq_none.mpr
  intro k _ hgk
  exact h k ((goodK_true_iff l k).mp hgk)

theorem firstClose_eq_some (l : List Char) (k : Nat) (hg : GoodK l k)
    (hmin : ∀ m, m < k → ¬ GoodK l m) : firstClose l = some k := by
  apply range_find?_some_intro
  · have := congrArg List.length hg.2.1
    simp at this
    omega
  · exact (goodK_true_iff l k).mpr hg
  · intro m hm
    exact Bool.eq_false_iff.mpr (fun ht => hmin m hm ((goodK_true_iff l m).mp ht))

theorem scanAux_eq_specScanAux : ∀ (fuel : Nat) (l : List Char) (i : Nat),
    scanAux fuel l i = specScanAux fuel l i := by
  intro fuel
  induction fuel with
  | zero => intro l i; rfl
  | succ fuel ih =>
    intro l i
    rcases l with _ | ⟨c1, _ | ⟨c2, rest⟩⟩
    · rfl
    · show scanAux fuel [] (i + 1) = specScanAux fuel [] (i + 1)
      exact ih [] (i + 1)
    · by_cases hcc : c1 = '{' ∧ c2 = '{'
      · have h1 : scanAux (fuel + 1) (c1 :: c2 :: rest) i
            = match closeScan [] rest with
              | some (c, rest2) =>
                (i, i + 4 + c.length, c) :: scanAux fuel rest2 (i + 4 + c.length)
              | none => scanAux fuel (c2 :: rest) (i + 1) := by
          simp only [scanAux, if_pos hcc]
        have h2 : specScanAux (fuel + 1) (c1 :: c2 :: rest) i
            = match firstClose rest with
              | some k =>
                (i, i + 4 + k, rest.take k) :: specScanAux fuel (rest.drop (k + 2)) (i + 4 + k)
              | none => specScanAux fuel (c2 :: rest) (i + 1) := by
          simp only [specScanAux, if_pos hcc]
        rw [h1, h2]
        cases hcs : closeScan [] rest with
        | none =>
          rw [firstClose_eq_none rest (closeScan_none_goodK rest [] hcs)]
          exact ih (c2 :: rest) (i + 1)
        | some p =>
          obtain ⟨c, rest2⟩ := p
          obtain ⟨k, hc, hr, hg, hmin⟩ := closeScan_some_goodK rest [] c rest2 hcs
          simp only [List.nil_append] at hc
          rw [firstClose_eq_some rest k hg hmin]
          have hlen2 : c.length = k := by
            have := congrArg List.length hg.2.1
            simp at this
            rw [hc]
            simp [List.length_take]
            omega
          show (i, i + 4 + c.length, c) :: scanAux fuel rest2 (i + 4 + c.length)
              = (i, i + 4 + k, rest.take k)
                :: specScanAux fuel (rest.drop (k + 2)) (i + 4 + k)
          rw [hlen2, hc, hr]
          rw [ih (rest.drop (k + 2)) (i + 4 + k)]
      · have h1 : scanAux (fuel + 1) (c1 :: c2 :: rest) i
            = scanAux fuel (c2 :: rest) (i + 1) := by
          simp only [scanAux, if_neg hcc]
        have h2 : specScanAux (fuel + 1) (c1 :: c2 :: rest) i
            = specScanAux fuel (c2 :: rest) (i + 1) := by
          simp only [specScanAux, if_neg hcc]
        rw [h1, h2]
        exact ih (c2 :: rest) (i + 1)

/-- Counterexample to claim C4 as stated: under the spec's literal
    matching rule (arbitrary content, the first closing double brace after
    the opening one closes the match), the inputs consisting of two
    opening braces followed directly by two closing braces, and of two
    opening braces, a newline and two closing braces, each contain a
    match, but the code's pattern finds none: the group must be nonempty
    and dot never matches a newline. -/
theorem claim_C4_counterexample :
    ¬ (scan ("\x7b\x7b\x7d\x7d".toList) = specScanLit ("\x7b\x7b\x7d\x7d".toList)) ∧
    ¬ (scan ("\x7b\x7b\n\x7d\x7d".toList) = specScanLit ("\x7b\x7b\n\x7d\x7d".toList)) := by
  refine ⟨by decide, by decide⟩

/-- Claim C4 (amended): the Resolver scans left to right in one pass and
    matches two opening braces, a non-greedy nonempty run of non-newline
    characters, and two closing braces: the earliest closing pair that
    leaves the content nonempty and newline-free closes the match, and
    each occurrence's key is the matched content with surrounding
    whitespace stripped. -/
theorem claim_C4_amended :
    (∀ t : List Char, scan t = specScan t) ∧
    (∀ (ctx : Context) (t : List Char),
      ((cal_render_position ctx t).2).map Placeholder.placeholder
        = (scan t).map (fun m => pyStrip m.2.2)) := by
  constructor
  · intro t
    exact scanAux_eq_specScanAux (t.length + 1) t 0
  · intro ctx t
    exact renderLoop_map_placeholder ctx t (scan t) [] 0
